import Mathlib

set_option linter.unusedSectionVars false
set_option linter.unusedVariables false

/-!
Verification of the scene-graph / camera / render-loop core of a small 2D
canvas game engine.  The numeric scalars of the source (IEEE doubles) are
modelled by an arbitrary linear ordered field `α`; concrete evaluations use
`ℚ`, and the square-root–dependent vector operations are modelled over `ℝ`.

Sources embedded here:
  * `src/engine/math.ts`          — `Vec2`, `Matrix2D`
  * `src/engine/game-object.ts`   — `GameObject` (hierarchy, dirty flags,
                                     lazy transform resolution, traversal)
  * `src/engine/camera-object.ts` — `Camera` (view matrix, smoothing)
  * `src/engine/game.ts`          — render loop (queue sort, installed
                                     drawing transform)

Mutable objects are modelled as records held in a store indexed by node ids;
methods become store transformers.  Unbounded recursions over the node graph
(`setDirty`, `updateTransform`, traversals) take an explicit fuel argument;
theorems assume enough fuel via explicit height/depth bounds.
-/

namespace Engine

variable {α : Type} [LinearOrderedField α]

/-- `Vec2` from `math.ts`: a pair of scalars.  The change-notification
callback of the source is modelled by returning a `changed` flag from the
mutating operations (`set`, the component setters); see `Vec2.set`. -/
structure Vec2 (α : Type) where
  x : α
  y : α
deriving DecidableEq, Repr

namespace Vec2

/-- `Vec2.clone`. -/
def clone (v : Vec2 α) : Vec2 α := ⟨v.x, v.y⟩

/-- `Vec2.add`. -/
def add (v other : Vec2 α) : Vec2 α := ⟨v.x + other.x, v.y + other.y⟩

/-- `Vec2.subtract`. -/
def subtract (v other : Vec2 α) : Vec2 α := ⟨v.x - other.x, v.y - other.y⟩

/-- `Vec2.multiplyScalar`. -/
def multiplyScalar (v : Vec2 α) (scalar : α) : Vec2 α :=
  ⟨v.x * scalar, v.y * scalar⟩

/-- `Vec2.divideScalar`: division by zero yields `(0, 0)`. -/
def divideScalar (v : Vec2 α) (scalar : α) : Vec2 α :=
  if scalar ≠ 0 then ⟨v.x / scalar, v.y / scalar⟩ else ⟨0, 0⟩

/-- `Vec2.lengthSq`. -/
def lengthSq (v : Vec2 α) : α := v.x * v.x + v.y * v.y

/-- `Vec2.dot`. -/
def dot (v other : Vec2 α) : α := v.x * other.x + v.y * other.y

/-- `Vec2.lerp`. -/
def lerp (v other : Vec2 α) (t : α) : Vec2 α :=
  ⟨v.x + (other.x - v.x) * t, v.y + (other.y - v.y) * t⟩

/-- `Vec2.equals`. -/
def equals (v other : Vec2 α) : Bool := v.x = other.x && v.y = other.y

/-- `Vec2.set` (the two-component / copying forms): the source assigns the
new components only when they differ from the current ones, and the `Bool`
result records whether the change callback (`onChangeFn`) fires. -/
def set (v target : Vec2 α) : Vec2 α × Bool :=
  if v.x = target.x ∧ v.y = target.y then (v, false) else (target, true)

/-- The `set x(n)` component setter of the source: assigns and fires the
change callback only when the value differs. -/
def setX (v : Vec2 α) (n : α) : Vec2 α × Bool :=
  if v.x = n then (v, false) else (⟨n, v.y⟩, true)

/-- The `set y(n)` component setter of the source. -/
def setY (v : Vec2 α) (n : α) : Vec2 α × Bool :=
  if v.y = n then (v, false) else (⟨v.x, n⟩, true)

/-- `Vec2.length`, over `ℝ` since it takes a square root. -/
noncomputable def length (v : Vec2 ℝ) : ℝ := Real.sqrt v.lengthSq

/-- `Vec2.normalize`: returns `(0,0)` for the zero vector. -/
noncomputable def normalize (v : Vec2 ℝ) : Vec2 ℝ :=
  if v.length > 0 then v.divideScalar v.length else ⟨0, 0⟩

/-- `Vec2.limit`. -/
noncomputable def limit (v : Vec2 ℝ) (max : ℝ) : Vec2 ℝ :=
  if v.lengthSq > max * max then (v.normalize).multiplyScalar max else v.clone

end Vec2

/-- `Matrix2D` from `math.ts`: the six scalars of a 2×3 affine matrix. -/
structure Matrix2D (α : Type) where
  a : α
  b : α
  c : α
  d : α
  tx : α
  ty : α
deriving DecidableEq, Repr

namespace Matrix2D

/-- `Matrix2D.identity` / the default constructor. -/
def identity : Matrix2D α := ⟨1, 0, 0, 1, 0, 0⟩

/-- `Matrix2D.clone`. -/
def clone (m : Matrix2D α) : Matrix2D α := ⟨m.a, m.b, m.c, m.d, m.tx, m.ty⟩

/-- `Matrix2D.copyFrom`. -/
def copyFrom (_m other : Matrix2D α) : Matrix2D α := other.clone

/-- `Matrix2D.append` (`this = this * other`), entry formulas copied from
the source verbatim. -/
def append (m other : Matrix2D α) : Matrix2D α :=
  ⟨m.a * other.a + m.b * other.c,
   m.a * other.b + m.b * other.d,
   m.c * other.a + m.d * other.c,
   m.c * other.b + m.d * other.d,
   m.a * other.tx + m.b * other.ty + m.tx,
   m.c * other.tx + m.d * other.ty + m.ty⟩

/-- `Matrix2D.prepend` (`this = other * this`). -/
def prepend (m other : Matrix2D α) : Matrix2D α :=
  ⟨other.a * m.a + other.b * m.c,
   other.a * m.b + other.b * m.d,
   other.c * m.a + other.d * m.c,
   other.c * m.b + other.d * m.d,
   other.a * m.tx + other.b * m.ty + other.tx,
   other.c * m.tx + other.d * m.ty + other.ty⟩

/-- `Matrix2D.translate`. -/
def translate (m : Matrix2D α) (x y : α) : Matrix2D α :=
  { m with tx := m.tx + (m.a * x + m.c * y), ty := m.ty + (m.b * x + m.d * y) }

/-- `Matrix2D.scale`. -/
def scale (m : Matrix2D α) (x y : α) : Matrix2D α :=
  { m with a := m.a * x, b := m.b * x, c := m.c * y, d := m.d * y }

/-- The body of `Matrix2D.rotate` with `cos angle` and `sin angle` passed in
as the scalars `co` and `si` (the source computes them with `Math.cos` /
`Math.sin`; see `Matrix2D.rotate` below for the `ℝ` instantiation). -/
def rotateCS (m : Matrix2D α) (co si : α) : Matrix2D α :=
  { m with
    a := m.a * co - m.c * si,
    b := m.b * co - m.d * si,
    c := m.a * si + m.c * co,
    d := m.b * si + m.d * co }

/-- `Matrix2D.rotate` over `ℝ`. -/
noncomputable def rotate (m : Matrix2D ℝ) (angle : ℝ) : Matrix2D ℝ :=
  m.rotateCS (Real.cos angle) (Real.sin angle)

/-- The determinant `a*d - b*c` computed inside `Matrix2D.invert`. -/
def det (m : Matrix2D α) : α := m.a * m.d - m.b * m.c

/-- `Matrix2D.invert`: a singular matrix resets to the identity. -/
def invert (m : Matrix2D α) : Matrix2D α :=
  if m.det = 0 then identity else
    let invDet := 1 / m.det
    ⟨m.d * invDet, -m.b * invDet, -m.c * invDet, m.a * invDet,
     (m.c * m.ty - m.d * m.tx) * invDet,
     (m.b * m.tx - m.a * m.ty) * invDet⟩

/-- `Matrix2D.transformPoint`. -/
def transformPoint (m : Matrix2D α) (x y : α) : Vec2 α :=
  ⟨m.a * x + m.c * y + m.tx, m.b * x + m.d * y + m.ty⟩

/-- `Matrix2D.transformVec2`. -/
def transformVec2 (m : Matrix2D α) (vec : Vec2 α) : Vec2 α :=
  ⟨m.a * vec.x + m.c * vec.y + m.tx, m.b * vec.x + m.d * vec.y + m.ty⟩

end Matrix2D

/-! ### Camera (`camera-object.ts`)

`getViewMatrix` reads the camera's resolved world transform (the source
calls `this.updateTransform()` first); here the resolved matrix is a field
of the state record, together with the other fields the method reads. -/

/-- The camera state read by `Camera.getViewMatrix`: the resolved world
transform, the limit correction `limitDiff` computed by `onUpdate`, the
smoothing state, zoom, the centering flag and the scaler's logical
viewport size. -/
structure CameraView (α : Type) where
  worldTransform : Matrix2D α
  limitDiff : Vec2 α
  useSmooth : Bool
  cameraPosition : Vec2 α
  zoom : α
  center : Bool
  logicalWidth : α
  logicalHeight : α
deriving DecidableEq

/-- `Camera.getViewMatrix`, line by line from the source:
copy the world transform, translate by `limitDiff`, optionally translate by
the local coordinates of the smoothed position
(`globalToLocalPosition(cameraPosition)`), invert, prepend the zoom matrix,
and prepend the centering translation when `center` is set. -/
def getViewMatrix (cam : CameraView α) : Matrix2D α :=
  let m1 := (cam.worldTransform.clone).translate cam.limitDiff.x cam.limitDiff.y
  let m2 :=
    if cam.useSmooth then
      let lo := (cam.worldTransform.clone.invert).transformVec2 cam.cameraPosition
      m1.translate lo.x lo.y
    else m1
  let m3 := m2.invert
  let m4 := m3.prepend ⟨cam.zoom, 0, 0, cam.zoom, 0, 0⟩
  if cam.center then
    m4.prepend ⟨1, 0, 0, 1, cam.logicalWidth / 2, cam.logicalHeight / 2⟩
  else m4

/-- `Camera.worldToScreen`. -/
def worldToScreen (cam : CameraView α) (worldPos : Vec2 α) : Vec2 α :=
  (getViewMatrix cam).transformVec2 worldPos

/-- `Camera.screenToWorld`. -/
def screenToWorld (cam : CameraView α) (screenPos : Vec2 α) : Vec2 α :=
  ((getViewMatrix cam).clone.invert).transformVec2 screenPos

/-- The smoothing step of `Camera.onUpdate` (the `useSmooth` branch):
`cameraPosition + (globalPosition - cameraPosition) * (smoothSpeed * dt)`,
with no clamping of the factor. -/
def onUpdateSmoothPosition (cameraPosition globalPosition : Vec2 α)
    (smoothSpeed deltaTime : α) : Vec2 α :=
  cameraPosition.add
    ((globalPosition.clone.subtract cameraPosition).multiplyScalar
      (smoothSpeed * deltaTime))

/-- Modelled from the spec: the spec asserts the smoothed position moves by
a fraction `clamp(smoothSpeed·dt, 0, 1)` of the remaining distance; the
source contains no such clamp, so the clamp exists only here, for
comparison against the code's actual step. -/
def specClamp (x lo hi : α) : α := max lo (min x hi)

/-! ### Render loop transform (`game.ts` / the older loop in `part_004`) -/

/-- `finalTransform` of the render loop: `viewMatrix.clone().append(obj.worldTransform)`. -/
def loopFinalTransform (viewMatrix worldTransform : Matrix2D α) : Matrix2D α :=
  viewMatrix.clone.append worldTransform

/-- The six arguments the current loop (`game.ts`) passes to
`ctx.setTransform`: every component of the final transform multiplied by
the scaler's uniform `scale`; no offsets are added. -/
def loopSetTransform (viewMatrix worldTransform : Matrix2D α)
    (finalScale : α) : Matrix2D α :=
  let m := loopFinalTransform viewMatrix worldTransform
  ⟨m.a * finalScale, m.b * finalScale, m.c * finalScale, m.d * finalScale,
   m.tx * finalScale, m.ty * finalScale⟩

/-- The six arguments the older loop (`part_004`) passes to
`ctx.setTransform`: as in the current loop but with the scaler's centering
offsets added to the two translation components. -/
def loopSetTransformLegacy (viewMatrix worldTransform : Matrix2D α)
    (finalScale offsetX offsetY : α) : Matrix2D α :=
  let m := loopFinalTransform viewMatrix worldTransform
  ⟨m.a * finalScale, m.b * finalScale, m.c * finalScale, m.d * finalScale,
   m.tx * finalScale + offsetX, m.ty * finalScale + offsetY⟩

/-! ### Scene graph (`game-object.ts`)

Objects live in a store indexed by node ids; parent/child references are
ids.  The `onUpdate`/`onPhysics`/`render` hooks are the no-ops of the base
`GameObject` class (subclass hooks are outside the modelled core).  The
graph-recursive methods (`setDirty`, `updateTransform`, `destroy`, the
traversals, `isDescendantOf`) take explicit fuel; theorems supply enough
fuel through height/depth bounds on the store. -/

/-- The per-object state of `GameObject`.  Field defaults of the source
constructor are collected in `newGameObject`. -/
structure GameObject (α : Type) where
  position : Vec2 α
  scale : Vec2 α
  rotation : α
  visible : Bool
  zIndex : α
  childIndex : α
  parent : Option Nat
  children : List Nat
  localTransform : Matrix2D α
  worldTransform : Matrix2D α
  isDirty : Bool
  childIndexDirty : Bool
deriving DecidableEq

/-- A freshly constructed `GameObject`: position `(0,0)`, scale `(1,1)`,
rotation `0`, visible, `zIndex = childIndex = 0`, no parent, no children,
identity transforms, and `isDirty = true`. -/
def newGameObject : GameObject α :=
  { position := ⟨0, 0⟩
    scale := ⟨1, 1⟩
    rotation := 0
    visible := true
    zIndex := 0
    childIndex := 0
    parent := none
    children := []
    localTransform := Matrix2D.identity
    worldTransform := Matrix2D.identity
    isDirty := true
    childIndexDirty := false }

/-- The heap of live objects, indexed by node id. -/
def Store (α : Type) := Nat → Option (GameObject α)

/-- Overwrite the object at id `i`. -/
def setStore (s : Store α) (i : Nat) (o : GameObject α) : Store α :=
  fun j => if j = i then some o else s j

/-- Update the object at id `i` in place. -/
def mapStore (s : Store α) (i : Nat) (f : GameObject α → GameObject α) : Store α :=
  fun j => if j = i then (s j).map f else s j

/-- The `children` array of node `i` (empty when the id is absent). -/
def childrenOf (s : Store α) (i : Nat) : List Nat :=
  match s i with
  | some o => o.children
  | none => []

/-- The `parent` reference of node `i`. -/
def parentOf (s : Store α) (i : Nat) : Option Nat :=
  match s i with
  | some o => o.parent
  | none => none

/-- `GameObject.setDirty`: mark `i` dirty and recurse into its children,
 short-circuiting when `i` is already dirty. -/
def setDirty : Nat → Store α → Nat → Store α
  | 0, s, _ => s
  | fuel + 1, s, i =>
    match s i with
    | none => s
    | some o =>
      if o.isDirty then s
      else
        o.children.foldl (fun acc j => setDirty fuel acc j)
          (setStore s i { o with isDirty := true })

/-- The local-transform recomputation of `GameObject.updateTransform`:
`identity().translate(position).rotate(rotation).scale(scale)`.  The
cosine/sine pair of the rotation angle is supplied by `trig` (over `ℝ`,
`trig θ = (cos θ, sin θ)`). -/
def localTransformFormula (trig : α → α × α) (o : GameObject α) : Matrix2D α :=
  ((Matrix2D.identity.translate o.position.x o.position.y).rotateCS
      (trig o.rotation).1 (trig o.rotation).2).scale o.scale.x o.scale.y

/-- `GameObject.updateTransform`: a no-op when clean, otherwise resolve the
parent first, recompute the local transform, compose the world transform
with the parent's (copy the local one at a root) and clear the dirty
flag. -/
def updateTransform (trig : α → α × α) : Nat → Store α → Nat → Store α
  | 0, s, _ => s
  | fuel + 1, s, i =>
    match s i with
    | none => s
    | some o =>
      if !o.isDirty then s
      else
        let s1 :=
          match o.parent with
          | some p => updateTransform trig fuel s p
          | none => s
        match s1 i with
        | none => s1
        | some o1 =>
          let lt := localTransformFormula trig o1
          let wt :=
            match o1.parent with
            | some p =>
              match s1 p with
              | some op => op.worldTransform.append lt
              | none => lt
            | none => lt
          setStore s1 i
            { o1 with localTransform := lt, worldTransform := wt, isDirty := false }

/-- The `globalPosition` getter: resolve the transform, then read the
translation components of the world matrix. -/
def globalPosition (trig : α → α × α) (fuel : Nat) (s : Store α) (i : Nat) : Vec2 α :=
  match updateTransform trig fuel s i i with
  | some o => ⟨o.worldTransform.tx, o.worldTransform.ty⟩
  | none => ⟨0, 0⟩

/-- The `position` setter: `this._position.set(value)`; the change callback
installed by the constructor is `setDirty`, fired only when a component
actually changed. -/
def setPosition (fuel : Nat) (s : Store α) (i : Nat) (value : Vec2 α) : Store α :=
  match s i with
  | none => s
  | some o =>
    let r := o.position.set value
    if r.2 then setDirty fuel (setStore s i { o with position := r.1 }) i else s

/-- The `scale` setter, identical in shape to the `position` setter. -/
def setScale (fuel : Nat) (s : Store α) (i : Nat) (value : Vec2 α) : Store α :=
  match s i with
  | none => s
  | some o =>
    let r := o.scale.set value
    if r.2 then setDirty fuel (setStore s i { o with scale := r.1 }) i else s

/-- The `rotation` setter: compare, assign, `setDirty` only on change. -/
def setRotation (fuel : Nat) (s : Store α) (i : Nat) (value : α) : Store α :=
  match s i with
  | none => s
  | some o =>
    if o.rotation ≠ value then
      setDirty fuel (setStore s i { o with rotation := value }) i
    else s

/-- `GameObject.isDescendantOf`: walk the parent chain looking for `target`. -/
def isDescendantOf : Nat → Store α → Nat → Nat → Bool
  | 0, _, _, _ => false
  | fuel + 1, s, i, target =>
    match parentOf s i with
    | none => false
    | some p => if p = target then true else isDescendantOf fuel s p target

/-- The error thrown by `addChild` on a cycle
(`Cannot add child: would create a cycle`). -/
inductive EngineError : Type where
  | cycleError : EngineError
deriving DecidableEq

/-- `GameObject.removeChild`: when `child` is currently a child, null its
parent, splice it out of `children` and mark it dirty; in every case mark
the child order dirty. -/
def removeChild (fuel : Nat) (s : Store α) (i child : Nat) : Store α :=
  match s i with
  | none => s
  | some o =>
    if child ∈ o.children then
      let s1 := mapStore s child fun oc => { oc with parent := none }
      let s2 := mapStore s1 i fun o2 => { o2 with children := o2.children.erase child }
      let s3 := setDirty fuel s2 child
      mapStore s3 i fun o2 => { o2 with childIndexDirty := true }
    else
      mapStore s i fun o2 => { o2 with childIndexDirty := true }

/-- `GameObject.addChild`: reject (throw) when `child` is the receiver or an
ancestor of it, leaving the tree untouched; otherwise detach `child` from
its previous parent, set its parent reference, append it to `children`,
mark it dirty and mark the child order dirty. -/
def addChild (fuel : Nat) (s : Store α) (i child : Nat) :
    Store α × Option EngineError :=
  if child = i ∨ isDescendantOf fuel s i child = true then
    (s, some EngineError.cycleError)
  else
    let s1 :=
      match parentOf s child with
      | some p => removeChild fuel s p child
      | none => s
    let s2 := mapStore s1 child fun o => { o with parent := some i }
    let s3 := mapStore s2 i fun o => { o with children := o.children ++ [child] }
    let s4 := setDirty fuel s3 child
    (mapStore s4 i fun o => { o with childIndexDirty := true }, none)

mutual

/-- `GameObject.destroy`: detach from the parent, then iterate over the
live `children` array calling `destroy` on each entry.  The iteration
follows the `Array.prototype.forEach` contract: the length is read once up
front, each index is re-read from the live array and indices past the
current length are skipped — while `removeChild` (called from the child's
own `destroy`) splices that same array. -/
def destroy : Nat → Store α → Nat → Store α
  | 0, s, _ => s
  | fuel + 1, s, i =>
    let s1 :=
      match parentOf s i with
      | some p => removeChild fuel s p i
      | none => s
    destroyEach fuel s1 i 0 (childrenOf s1 i).length
termination_by fuel s i => (fuel, 0)

/-- The `forEach` loop inside `destroy`: `k` is the current index, the last
argument counts the remaining iterations of the captured length. -/
def destroyEach : Nat → Store α → Nat → Nat → Nat → Store α
  | _, s, _, _, 0 => s
  | fuel, s, i, k, r + 1 =>
    let cs := childrenOf s i
    let s2 := if h : k < cs.length then destroy fuel s (cs.get ⟨k, h⟩) else s
    destroyEach fuel s2 i (k + 1) r
termination_by fuel s i k r => (fuel, r + 1)

end

/-- The `childIndex` of node `j`, as read by the child sort comparator. -/
def childIndexOf (s : Store α) (j : Nat) : α :=
  match s j with
  | some o => o.childIndex
  | none => 0

/-- The lazy child re-sort of `GameObject.update`:
`children.sort((a, b) => a._childIndex - b._childIndex)`.
`Array.prototype.sort` is stable per the ECMAScript specification, so it is
modelled by a stable insertion sort ordered by `childIndex`. -/
def sortChildren (s : Store α) (cs : List Nat) : List Nat :=
  cs.insertionSort fun u v => childIndexOf s u ≤ childIndexOf s v

mutual

/-- `GameObject.update`: run the (no-op) update hook, resolve the
transform, push the node on the render queue iff `visible`, re-sort the
children iff the child order is dirty, then recurse in child order. -/
def update (trig : α → α × α) : Nat → Store α → Nat → List Nat → Store α × List Nat
  | 0, s, _, q => (s, q)
  | fuel + 1, s, i, q =>
    match s i with
    | none => (s, q)
    | some _ =>
      let s1 := updateTransform trig (fuel + 1) s i
      match s1 i with
      | none => (s1, q)
      | some o1 =>
        let q1 := if o1.visible then q ++ [i] else q
        if o1.childIndexDirty then
          let cs := sortChildren s1 o1.children
          updateList trig fuel
            (setStore s1 i { o1 with children := cs, childIndexDirty := false })
            cs q1
        else
          updateList trig fuel s1 o1.children q1
termination_by fuel s i q => (fuel, 0)

/-- The recursion of `update` over a child list. -/
def updateList (trig : α → α × α) :
    Nat → Store α → List Nat → List Nat → Store α × List Nat
  | _, s, [], q => (s, q)
  | fuel, s, c :: cs, q =>
    let r := update trig fuel s c q
    updateList trig fuel r.1 cs r.2
termination_by fuel s cs q => (fuel, cs.length + 1)

end

mutual

/-- `GameObject.physics`: run the (no-op) physics hook, resolve the
transform, recurse into all children unconditionally. -/
def physics (trig : α → α × α) : Nat → Store α → Nat → Store α
  | 0, s, _ => s
  | fuel + 1, s, i =>
    match s i with
    | none => s
    | some _ =>
      let s1 := updateTransform trig (fuel + 1) s i
      physicsList trig fuel s1 (childrenOf s1 i)
termination_by fuel s i => (fuel, 0)

/-- The recursion of `physics` over a child list. -/
def physicsList (trig : α → α × α) : Nat → Store α → List Nat → Store α
  | _, s, [] => s
  | fuel, s, c :: cs => physicsList trig fuel (physics trig fuel s c) cs
termination_by fuel s cs => (fuel, cs.length + 1)

end

/-- The `zIndex` of node `j`, as read by the render-queue sort comparator. -/
def zIndexOf (s : Store α) (j : Nat) : α :=
  match s j with
  | some o => o.zIndex
  | none => 0

/-- The render-queue sort of the loop:
`renderQueue.sort((a, b) => a.zIndex - b.zIndex)`.
`Array.prototype.sort` is stable per the ECMAScript specification, so it is
modelled by a stable insertion sort ordered by `zIndex`. -/
def sortRenderQueue (s : Store α) (q : List Nat) : List Nat :=
  q.insertionSort fun u v => zIndexOf s u ≤ zIndexOf s v

/-! ### Structural predicates used by the theorems -/

/-- Node `j` is dirty (vacuously true for absent ids). -/
def dirtyIn (s : Store α) (j : Nat) : Prop :=
  ∀ o, s j = some o → o.isDirty = true

/-- `j` is listed among the children of `i`. -/
def ChildRel (s : Store α) (i j : Nat) : Prop := j ∈ childrenOf s i

/-- `j` is a strict descendant of `i` (transitive closure of `ChildRel`). -/
def Desc (s : Store α) (i j : Nat) : Prop := Relation.TransGen (ChildRel s) i j

/-- `j` lies in the subtree rooted at `i` (including `i` itself). -/
def InSubtree (s : Store α) (i j : Nat) : Prop := j = i ∨ Desc s i j

/-- The claimed invariant: every dirty node has only dirty children. -/
def DirtyClosed (s : Store α) : Prop :=
  ∀ i o, s i = some o → o.isDirty = true → ∀ k ∈ o.children, dirtyIn s k

/-- Down-closedness of the dirty flag restricted to the subtree of `i`. -/
def LocalDC (s : Store α) (i : Nat) : Prop :=
  ∀ j, InSubtree s i j → ∀ o, s j = some o → o.isDirty = true →
    ∀ k ∈ o.children, dirtyIn s k

/-- The child depth below node `i` is smaller than the bound. -/
def HeightB (s : Store α) : Nat → Nat → Prop
  | 0, i => childrenOf s i = []
  | n + 1, i => ∀ j ∈ childrenOf s i, HeightB s n j

/-- The parent-chain length above node `i` is smaller than the bound. -/
def DepthB (s : Store α) : Nat → Nat → Prop
  | 0, i => parentOf s i = none
  | n + 1, i => ∀ p, parentOf s i = some p → DepthB s n p

/-- `j` is a strict ancestor of `i` along parent references. -/
def OnParentChain (s : Store α) (i j : Nat) : Prop :=
  Relation.TransGen (fun a b => parentOf s a = some b) i j

/-- Children lists and parent references agree: every listed child points
back to the node that lists it. -/
def ChildParent (s : Store α) : Prop :=
  ∀ j oj, s j = some oj → ∀ k ∈ oj.children, ∀ ok, s k = some ok →
    ok.parent = some j

/-- Pointwise relation between a store and the same store after some nodes
were marked dirty: every slot is unchanged or has only its dirty flag
turned on. -/
def MarkLe (s t : Store α) : Prop :=
  ∀ j, t j = s j ∨ t j = (s j).map fun o => { o with isDirty := true }

/-- Every node that is dirty in `t` but was not dirty in `s` has its whole
`s`-subtree dirty in `t` (the bookkeeping invariant of the `setDirty`
recursion). -/
def NewDirtyGood (s t : Store α) : Prop :=
  ∀ j, dirtyIn t j → ¬dirtyIn s j → ∀ k, InSubtree s j k → dirtyIn t k

/-- A convenient cosine/sine oracle for scenarios whose rotations are all
zero: `cos 0 = 1` and `sin 0 = 0`. -/
def trigZero : ℚ → ℚ × ℚ := fun _ => (1, 0)

/-! ### Concrete stores for the scenario claims -/

/-- Three freshly constructed, unattached nodes with ids `0`, `1`, `2`. -/
def threeNodes : Store ℚ := fun i => if i ≤ 2 then some newGameObject else none

/-- The tree of the transform scenario: node `1` («A») is attached under
the root `0`, node `2` («B») under `1` with local position `(10, 0)`; `B`'s
transform is resolved once, and then `A`'s position is set to `(5, 5)`.
Parametrised by the cosine/sine oracle (every rotation involved is `0`). -/
def c1Scenario (trig : ℚ → ℚ × ℚ) : Store ℚ :=
  let s1 := (addChild 4 threeNodes 0 1).1
  let s2 := (addChild 4 s1 1 2).1
  let s3 := setPosition 4 s2 2 ⟨10, 0⟩
  let s4 := updateTransform trig 4 s3 2
  setPosition 4 s4 1 ⟨5, 5⟩

/-- A root node `0` with two children `1` and `2`: the failing input of the
`destroy` claim. -/
def c2Scenario : Store ℚ := fun i =>
  if i = 0 then some { newGameObject with children := [1, 2] }
  else if i = 1 then some { newGameObject with parent := some 0 }
  else if i = 2 then some { newGameObject with parent := some 0 }
  else none

/-- A root `0` whose first child `1` has `zIndex = 5` and whose second
child `2` has `zIndex = 3`: traversal order disagrees with render order. -/
def c8Scenario : Store ℚ := fun i =>
  if i = 0 then some { newGameObject with children := [1, 2] }
  else if i = 1 then some { newGameObject with parent := some 0, zIndex := 5 }
  else if i = 2 then some { newGameObject with parent := some 0, zIndex := 3 }
  else none

/-- A parent `0` with child `1`: the witness tree for the `addChild` cycle
rejection. -/
def c3Scenario : Store ℚ := fun i =>
  if i = 0 then some { newGameObject with children := [1] }
  else if i = 1 then some { newGameObject with parent := some 0 }
  else none

/-- A degenerate camera with `zoom = 0` over the identity world transform,
centering enabled on an 800×600 logical viewport. -/
def zoomZeroCamera : CameraView ℚ :=
  { worldTransform := Matrix2D.identity
    limitDiff := ⟨0, 0⟩
    useSmooth := false
    cameraPosition := ⟨0, 0⟩
    zoom := 0
    center := true
    logicalWidth := 800
    logicalHeight := 600 }

/-- The same camera with the default `zoom = 1`. -/
def unitZoomCamera : CameraView ℚ := { zoomZeroCamera with zoom := 1 }

end Engine

/-! ## Theorems -/

namespace Engine

variable {α : Type} [LinearOrderedField α]

theorem Matrix2D.matrixClone_is_id (m : Matrix2D α) : m.clone = m := rfl

theorem Vec2.vecClone_is_id (v : Vec2 α) : v.clone = v := rfl

theorem Matrix2D.invert_transformVec2 (m : Matrix2D α) (h : m.det ≠ 0) (p : Vec2 α) :
    m.invert.transformVec2 (m.transformVec2 p) = p := by
  have hd : m.a * m.d - m.b * m.c ≠ 0 := h
  simp only [Matrix2D.invert, Matrix2D.det, Matrix2D.transformVec2, if_neg hd]
  obtain ⟨px, py⟩ := p
  simp only [Vec2.mk.injEq]
  constructor <;> · field_simp; ring

/-- C3: `addChild` called with the receiver itself or with one of its
ancestors (the receiver's own `isDescendantOf` test) throws the
cycle error synchronously and returns with the store — every parent
pointer and children list — exactly as it was. -/
theorem c3_addChild_cycle_rejected (fuel : Nat) (s : Store α) (i child : Nat)
    (h : child = i ∨ isDescendantOf fuel s i child = true) :
    addChild fuel s i child = (s, some EngineError.cycleError) := by
  unfold addChild
  rw [if_pos h]

/-- Witness for C3 at a concrete tree: node `0` is the parent of node `1`,
and `(1).addChild(0)` is rejected with the tree untouched. -/
theorem c3_witness :
    ((0 : Nat) = 1 ∨ isDescendantOf 4 c3Scenario 1 0 = true) ∧
      addChild 4 c3Scenario 1 0 = (c3Scenario, some EngineError.cycleError) :=
  ⟨Or.inr (by decide),
   c3_addChild_cycle_rejected 4 c3Scenario 1 0 (Or.inr (by decide))⟩

/-- C5: writing a node's `position` with a `Vec2` equal to its current
value leaves the store untouched (no node becomes dirty) and fires no
change callback; the component setters likewise fire the callback exactly
when the written component differs from the current one. -/
theorem c5_noop_position_write (fuel : Nat) (s : Store α) (i : Nat)
    (o : GameObject α) (value : Vec2 α) (h : s i = some o)
    (hv : o.position = value) :
    setPosition fuel s i value = s ∧ (o.position.set value).2 = false ∧
      (∀ w : Vec2 α, (w.set w).2 = false ∧ (w.setX w.x).2 = false ∧
        (w.setY w.y).2 = false) ∧
      (∀ w : Vec2 α, ∀ n : α, ((w.setX n).2 = true ↔ w.x ≠ n) ∧
        ((w.setY n).2 = true ↔ w.y ≠ n)) ∧
      (∀ w t : Vec2 α, (w.set t).2 = true ↔ w ≠ t) := by
  subst hv
  refine ⟨?_, ?_, ?_, ?_, ?_⟩
  · simp [setPosition, h, Vec2.set]
  · simp [Vec2.set]
  · intro w
    refine ⟨by simp [Vec2.set], by simp [Vec2.setX], by simp [Vec2.setY]⟩
  · intro w n
    constructor
    · by_cases hx : w.x = n <;> simp [Vec2.setX, hx]
    · by_cases hy : w.y = n <;> simp [Vec2.setY, hy]
  · intro w t
    obtain ⟨wx, wy⟩ := w
    obtain ⟨tx', ty'⟩ := t
    by_cases hc : wx = tx' ∧ wy = ty' <;>
      simp [Vec2.set, hc, Vec2.mk.injEq]

/-- Witness for C5: rewriting the origin position of a fresh node with the
origin changes nothing. -/
theorem c5_witness :
    threeNodes 1 = some newGameObject ∧
      (newGameObject : GameObject ℚ).position = ⟨0, 0⟩ ∧
      setPosition 3 threeNodes 1 ⟨0, 0⟩ = threeNodes :=
  ⟨by decide, by decide,
   (c5_noop_position_write 3 threeNodes 1 newGameObject ⟨0, 0⟩ (by decide)
       (by decide)).1⟩

/-- C6 counterexample: with `zoom = 0` (an allowed zoom value) the view
matrix is singular, `invert` resets it to the identity, and
`screenToWorld (worldToScreen p)` collapses every point to the viewport
center instead of returning `p` — so the round trip does not hold for
arbitrary zoom. -/
theorem c6_counterexample :
    screenToWorld zoomZeroCamera (worldToScreen zoomZeroCamera ⟨1, 0⟩) =
        (⟨400, 300⟩ : Vec2 ℚ) ∧
      ((⟨400, 300⟩ : Vec2 ℚ) : Vec2 ℚ) ≠ ⟨1, 0⟩ := by
  constructor
  · norm_num [screenToWorld, worldToScreen, getViewMatrix, zoomZeroCamera,
      Matrix2D.identity, Matrix2D.clone, Matrix2D.invert, Matrix2D.det,
      Matrix2D.translate, Matrix2D.prepend, Matrix2D.transformVec2]
  · norm_num [Vec2.mk.injEq]

/-- C6 (amended): whenever the camera's view matrix is invertible — in
particular the zoom is nonzero and the camera's world transform is
nonsingular — `screenToWorld` and `worldToScreen` are exact inverses via
inversion of the view matrix. -/
theorem c6_round_trip (cam : CameraView α) (p : Vec2 α)
    (h : (getViewMatrix cam).det ≠ 0) :
    screenToWorld cam (worldToScreen cam p) = p := by
  unfold screenToWorld worldToScreen
  rw [Matrix2D.matrixClone_is_id]
  exact Matrix2D.invert_transformVec2 _ h p

/-- Witness for C6 at a concrete camera with `zoom = 1` over the identity
world transform. -/
theorem c6_witness :
    (getViewMatrix unitZoomCamera).det ≠ 0 ∧
      screenToWorld unitZoomCamera (worldToScreen unitZoomCamera ⟨3, 7⟩) =
        (⟨3, 7⟩ : Vec2 ℚ) := by
  have h : (getViewMatrix unitZoomCamera).det ≠ 0 := by
    norm_num [getViewMatrix, unitZoomCamera, zoomZeroCamera, Matrix2D.identity,
      Matrix2D.clone, Matrix2D.invert, Matrix2D.det, Matrix2D.translate,
      Matrix2D.prepend]
  exact ⟨h, c6_round_trip unitZoomCamera ⟨3, 7⟩ h⟩

/-- C7 counterexample: with smoothing factor `k = 1` and a tick of
`dt = 2`, the accumulator starting at `(0,0)` with the target at `(100,0)`
moves to `x = 200`, overshooting the target, while the claimed
`100·clamp(k·dt, 0, 1)` step would stop at `100` — the source applies no
clamp. -/
theorem c7_counterexample :
    (onUpdateSmoothPosition (⟨0, 0⟩ : Vec2 ℚ) ⟨100, 0⟩ 1 2).x = 200 ∧
      (100 : ℚ) * specClamp ((1 : ℚ) * 2) 0 1 = 100 ∧ (200 : ℚ) ≠ 100 := by
  refine ⟨?_, ?_, by norm_num⟩
  · norm_num [onUpdateSmoothPosition, Vec2.add, Vec2.subtract, Vec2.clone,
      Vec2.multiplyScalar]
  · norm_num [specClamp]

/-- C7 (amended): after one tick, the smoothed accumulator at `(0,0)` with
the camera's true position at `(100,0)` has moved along x by exactly
`100·(k·dt)` — an unclamped fraction of the remaining distance, which can
overshoot once `k·dt > 1`. -/
theorem c7_smoothing_unclamped (k dt : α) :
    onUpdateSmoothPosition (⟨0, 0⟩ : Vec2 α) ⟨100, 0⟩ k dt =
      ⟨100 * (k * dt), 0⟩ := by
  simp only [onUpdateSmoothPosition, Vec2.add, Vec2.subtract, Vec2.clone,
    Vec2.multiplyScalar, Vec2.mk.injEq]
  constructor <;> ring

/-- Witness for C7 at `k = 1`, `dt = 2` over `ℚ`. -/
theorem c7_witness :
    onUpdateSmoothPosition (⟨0, 0⟩ : Vec2 ℚ) ⟨100, 0⟩ 1 2 =
      ⟨100 * (1 * 2), 0⟩ :=
  c7_smoothing_unclamped 1 2

/-- C9 counterexample: with the identity view and world transforms, scale
`1` and centering offset `offsetX = 100`, the transform installed by the
current loop (`game.ts`) has translation `0`, while the claimed formula
(offsets added, as in the older loop of `part_004`) yields `100`. -/
theorem c9_counterexample :
    (loopSetTransform (Matrix2D.identity : Matrix2D ℚ) Matrix2D.identity 1).tx
        = 0 ∧
      (loopSetTransformLegacy (Matrix2D.identity : Matrix2D ℚ)
          Matrix2D.identity 1 100 0).tx = 100 ∧ (0 : ℚ) ≠ 100 := by
  refine ⟨?_, ?_, by norm_num⟩ <;>
    norm_num [loopSetTransform, loopSetTransformLegacy, loopFinalTransform,
      Matrix2D.identity, Matrix2D.clone, Matrix2D.append]

/-- C9 (amended): the transform the current loop installs before a node's
render hook is `viewMatrix.clone().append(worldTransform)` with all six
components multiplied by the scaler's uniform scale and no offsets added;
as a map it scales the composed matrix's action by that factor.  Only the
older loop variant (`part_004`) additionally adds the scaler's centering
offsets to the two translation components. -/
theorem c9_installed_transform (viewMatrix worldTransform : Matrix2D α)
    (finalScale offsetX offsetY : α) (p : Vec2 α) :
    (loopSetTransform viewMatrix worldTransform finalScale).transformVec2 p =
        ((viewMatrix.append worldTransform).transformVec2 p).multiplyScalar
          finalScale ∧
      (loopSetTransformLegacy viewMatrix worldTransform finalScale offsetX
            offsetY).transformVec2 p =
        (((viewMatrix.append worldTransform).transformVec2 p).multiplyScalar
              finalScale).add ⟨offsetX, offsetY⟩ := by
  constructor <;>
    · simp only [loopSetTransform, loopSetTransformLegacy, loopFinalTransform,
        Matrix2D.clone, Matrix2D.append, Matrix2D.transformVec2,
        Vec2.multiplyScalar, Vec2.add, Vec2.mk.injEq]
      constructor <;> ring

/-- Witness for C9 at concrete matrices over `ℚ`. -/
theorem c9_witness :
    (loopSetTransform (Matrix2D.identity : Matrix2D ℚ) Matrix2D.identity
          2).transformVec2 ⟨1, 1⟩ =
      ((Matrix2D.identity.append
            (Matrix2D.identity : Matrix2D ℚ)).transformVec2 ⟨1, 1⟩).multiplyScalar
        2 :=
  (c9_installed_transform Matrix2D.identity Matrix2D.identity 2 0 0 ⟨1, 1⟩).1

/-- C2 (the code bug): destroying a root with two children iterates
`children.forEach` while each child's `destroy` splices that same array
through `removeChild`; the second child is skipped, so after `destroy`
returns it still holds a parent reference to the destroyed node and is
still listed among its children — contradicting the method's own
documentation («Destroys this object and all its children»). -/
theorem c2_destroy_skips_second_child :
    (destroy 6 c2Scenario 0 2).map (fun o => o.parent) = some (some 0) ∧
      childrenOf (destroy 6 c2Scenario 0) 0 = [2] ∧
      (destroy 6 c2Scenario 0 1).map (fun o => o.parent) = some none := by
  refine ⟨?_, ?_, ?_⟩ <;>
    norm_num [destroy, destroyEach, removeChild, setDirty, c2Scenario,
      newGameObject, setStore, mapStore, childrenOf, parentOf, List.foldl,
      List.erase]

theorem Vec2.lengthSq_nonneg (v : Vec2 ℝ) : 0 ≤ v.lengthSq :=
  add_nonneg (mul_self_nonneg _) (mul_self_nonneg _)

theorem Vec2.length_nonneg (v : Vec2 ℝ) : 0 ≤ v.length :=
  Real.sqrt_nonneg _

/-- C10: `limit` returns a vector of length at most `max` (for `max ≥ 0`):
the scaled normalization branch when the squared length exceeds `max²`,
and an unmodified copy otherwise; the receiver itself is never mutated
(`clone` returns an equal fresh vector). -/
theorem c10_limit_length_le (v : Vec2 ℝ) (mx : ℝ) (h : 0 ≤ mx) :
    (v.limit mx).length ≤ mx ∧
      (v.lengthSq > mx * mx → v.limit mx = v.normalize.multiplyScalar mx) ∧
      (¬v.lengthSq > mx * mx → v.limit mx = v.clone) ∧ v.clone = v := by
  refine ⟨?_, fun h2 => by simp [Vec2.limit, if_pos h2],
    fun h2 => by simp [Vec2.limit, if_neg h2], rfl⟩
  by_cases h2 : v.lengthSq > mx * mx
  · have hS : (0 : ℝ) < v.lengthSq := lt_of_le_of_lt (mul_self_nonneg mx) h2
    have hlp : (0 : ℝ) < v.length := Real.sqrt_pos.mpr hS
    have hl : v.length ≠ 0 := ne_of_gt hlp
    have hl2 : v.length * v.length = v.lengthSq :=
      Real.mul_self_sqrt (Vec2.lengthSq_nonneg v)
    have hres : (v.normalize.multiplyScalar mx).lengthSq = mx * mx := by
      rw [Vec2.normalize, if_pos hlp, Vec2.divideScalar, if_pos hl]
      simp only [Vec2.multiplyScalar, Vec2.lengthSq] at hl2 ⊢
      field_simp
      nlinarith [hl2]
    rw [Vec2.limit, if_pos h2, Vec2.length, hres, Real.sqrt_mul_self h]
  · rw [Vec2.limit, if_neg h2, Vec2.vecClone_is_id]
    calc v.length = Real.sqrt v.lengthSq := rfl
      _ ≤ Real.sqrt (mx * mx) := Real.sqrt_le_sqrt (le_of_not_lt h2)
      _ = mx := Real.sqrt_mul_self h

/-- Witness for C10 at `v = (3, 4)`, `max = 1`. -/
theorem c10_witness :
    (0 : ℝ) ≤ 1 ∧ ((⟨3, 4⟩ : Vec2 ℝ).limit 1).length ≤ 1 :=
  ⟨by norm_num, (c10_limit_length_le ⟨3, 4⟩ 1 (by norm_num)).1⟩

/-! ### The render-queue sort (C8) -/

theorem orderedInsert_filter_key {β : Type} (key : β → α) (k : α) (a : β)
    (L : List β) :
    (L.orderedInsert (fun u v => key u ≤ key v) a).filter
        (fun x => decide (key x = k)) =
      if key a = k then
        a :: L.filter (fun x => decide (key x = k))
      else L.filter (fun x => decide (key x = k)) := by
  induction L with
  | nil =>
    by_cases ha : key a = k <;> simp [List.orderedInsert, ha]
  | cons b L ih =>
    by_cases hab : key a ≤ key b
    · simp only [List.orderedInsert, if_pos hab]
      by_cases ha : key a = k <;> by_cases hb : key b = k <;>
        simp [List.filter, ha, hb]
    · simp only [List.orderedInsert, if_neg hab]
      by_cases hb : key b = k
      · have ha : key a ≠ k := fun ha => hab (by rw [ha, hb])
        simp [List.filter, hb, ha, ih]
      · by_cases ha : key a = k <;> simp [List.filter, hb, ha, ih]

theorem insertionSort_filter_key {β : Type} (key : β → α) (k : α)
    (l : List β) :
    (l.insertionSort (fun u v => key u ≤ key v)).filter
        (fun x => decide (key x = k)) =
      l.filter (fun x => decide (key x = k)) := by
  induction l with
  | nil => rfl
  | cons a l ih =>
    by_cases ha : key a = k <;>
      simp [List.insertionSort, orderedInsert_filter_key, ha, ih]

/-- C8: the loop's render-queue sort orders the queue by ascending
`zIndex`; it is a permutation of the collected queue and it is stable —
for every `zIndex` value the subsequence of nodes carrying it is exactly
their insertion (update-traversal) subsequence.  Concretely, a root whose
first child has `zIndex = 5` and whose second child has `zIndex = 3` is
traversed `[0, 1, 2]` but rendered `[0, 2, 1]`, ascending in `zIndex`
regardless of tree position. -/
theorem c8_render_queue_sorted_stable :
    (∀ (s : Store α) (q : List Nat),
        List.Sorted (fun u v => zIndexOf s u ≤ zIndexOf s v)
            (sortRenderQueue s q) ∧
          (sortRenderQueue s q).Perm q ∧
          ∀ k : α,
            (sortRenderQueue s q).filter (fun x => decide (zIndexOf s x = k)) =
              q.filter (fun x => decide (zIndexOf s x = k))) ∧
      (update trigZero 5 c8Scenario 0 []).2 = [0, 1, 2] ∧
        sortRenderQueue c8Scenario (update trigZero 5 c8Scenario 0 []).2 =
          [0, 2, 1] := by
  refine ⟨fun s q => ?_, ?_, ?_⟩
  · haveI ht : IsTotal Nat fun u v => zIndexOf s u ≤ zIndexOf s v :=
      ⟨fun a b => le_total _ _⟩
    haveI htr : IsTrans Nat fun u v => zIndexOf s u ≤ zIndexOf s v :=
      ⟨fun a b c hab hbc => le_trans hab hbc⟩
    exact ⟨List.sorted_insertionSort _ q, List.perm_insertionSort _ q,
      fun k => insertionSort_filter_key (zIndexOf s) k q⟩
  · norm_num [update, updateList, updateTransform, sortChildren, c8Scenario,
      newGameObject, setStore, mapStore, childrenOf, parentOf,
      localTransformFormula, Matrix2D.identity, Matrix2D.translate,
      Matrix2D.rotateCS, Matrix2D.scale, Matrix2D.append, trigZero,
      List.insertionSort, List.orderedInsert, childIndexOf]
  · norm_num [update, updateList, updateTransform, sortChildren, c8Scenario,
      newGameObject, setStore, mapStore, childrenOf, parentOf,
      localTransformFormula, Matrix2D.identity, Matrix2D.translate,
      Matrix2D.rotateCS, Matrix2D.scale, Matrix2D.append, trigZero,
      List.insertionSort, List.orderedInsert, childIndexOf, sortRenderQueue,
      zIndexOf]

/-! ### Lazy transform resolution (C1) -/

theorem updateTransform_shape (trig : α → α × α) :
    ∀ (f : Nat) (s : Store α) (p j : Nat),
      (updateTransform trig f s p) j = s j ∨
        ∃ o' lt wt, s j = some o' ∧
          (updateTransform trig f s p) j =
            some { o' with localTransform := lt, worldTransform := wt, isDirty := false } := by
  intro f
  induction f with
  | zero => intro s p j; left; rfl
  | succ f ih =>
    intro s p j
    cases hsp : s p with
    | none => left; simp [updateTransform, hsp]
    | some o =>
      cases hd : o.isDirty with
      | false => left; simp [updateTransform, hsp, hd]
      | true =>
        cases hp : o.parent with
        | none =>
          simp only [updateTransform, hsp, hd, hp, Bool.not_true,
            Bool.false_eq_true, if_false, setStore]
          by_cases hj : j = p
          · subst hj
            rw [if_pos rfl]
            refine Or.inr ⟨o, localTransformFormula trig o,
              localTransformFormula trig o, hsp, ?_⟩
            simp [hp]
          · rw [if_neg hj]; left; rfl
        | some p2 =>
          simp only [updateTransform, hsp, hd, hp, Bool.not_true,
            Bool.false_eq_true, if_false]
          cases hs1p : updateTransform trig f s p2 p with
          | none => simp only [hs1p]; exact ih s p2 j
          | some o1 =>
            simp only [hs1p, setStore]
            by_cases hj : j = p
            · subst hj
              rw [if_pos rfl]
              rcases ih s p2 j with h | ⟨o'', lt2, wt2, hso, h⟩
              · rw [hs1p, hsp] at h
                obtain rfl := (Option.some.inj h).symm
                exact Or.inr ⟨o, _, _, hsp, rfl⟩
              · rw [hsp] at hso
                obtain rfl := Option.some.inj hso
                rw [hs1p] at h
                obtain rfl := Option.some.inj h
                exact Or.inr ⟨o, _, _, hsp, rfl⟩
            · rw [if_neg hj]
              exact ih s p2 j

theorem updateTransform_local (trig : α → α × α) :
    ∀ (f : Nat) (s : Store α) (p j : Nat), j ≠ p → ¬OnParentChain s p j →
      (updateTransform trig f s p) j = s j := by
  intro f
  induction f with
  | zero => intro s p j _ _; rfl
  | succ f ih =>
    intro s p j hj hc
    cases hsp : s p with
    | none => simp [updateTransform, hsp]
    | some o =>
      cases hd : o.isDirty with
      | false => simp [updateTransform, hsp, hd]
      | true =>
        cases hp : o.parent with
        | none =>
          simp only [updateTransform, hsp, hd, hp, Bool.not_true,
            Bool.false_eq_true, if_false, setStore]
          rw [if_neg hj]
        | some p2 =>
          have hstep : parentOf s p = some p2 := by simp [parentOf, hsp, hp]
          have hj2 : j ≠ p2 := by
            rintro rfl
            exact hc (Relation.TransGen.single hstep)
          have hc2 : ¬OnParentChain s p2 j := fun h =>
            hc (Relation.TransGen.head hstep h)
          simp only [updateTransform, hsp, hd, hp, Bool.not_true,
            Bool.false_eq_true, if_false]
          cases hs1p : updateTransform trig f s p2 p with
          | none => simp only [hs1p]; exact ih s p2 j hj2 hc2
          | some o1 =>
            simp only [hs1p, setStore]
            rw [if_neg hj]
            exact ih s p2 j hj2 hc2

theorem transGen_head_cases {β : Type} {r : β → β → Prop} {a c : β}
    (h : Relation.TransGen r a c) :
    r a c ∨ ∃ b, r a b ∧ Relation.TransGen r b c := by
  induction h with
  | single h => exact Or.inl h
  | tail hab hbc ih =>
    rcases ih with h | ⟨b, hb, hbc2⟩
    · exact Or.inr ⟨_, h, Relation.TransGen.single hbc⟩
    · exact Or.inr ⟨b, hb, hbc2.tail hbc⟩

theorem DepthB_chain (s : Store α) :
    ∀ (n i j : Nat), DepthB s n i → OnParentChain s i j →
      ∃ m, m < n ∧ DepthB s m j := by
  intro n
  induction n with
  | zero =>
    intro i j hd hc
    rcases transGen_head_cases hc with h | ⟨b, hb, _⟩ <;>
      · exfalso
        have hnone : parentOf s i = none := hd
        first
        | exact Option.noConfusion (hnone ▸ h)
        | exact Option.noConfusion (hnone ▸ hb)
  | succ n ih =>
    intro i j hd hc
    rcases transGen_head_cases hc with h | ⟨b, hb, hc2⟩
    · exact ⟨n, Nat.lt_succ_self n, hd j h⟩
    · obtain ⟨m, hm, hj⟩ := ih b j (hd b hb) hc2
      exact ⟨m, Nat.lt_succ_of_lt hm, hj⟩

theorem DepthB_no_cycle (s : Store α) :
    ∀ (n i : Nat), DepthB s n i → ¬OnParentChain s i i := by
  intro n
  induction n using Nat.strong_induction_on with
  | _ n ih =>
    intro i hd hc
    obtain ⟨m, hm, hdm⟩ := DepthB_chain s n i i hd hc
    exact ih m hm i hdm hc

/-- C1: resolving a dirty node first resolves its parent, then recomputes
`localTransform = translate(position) · rotate(rotation) · scale(scale)` in
that fixed order and `worldTransform = parent.worldTransform · localTransform`
(the local transform alone at a root), clearing the dirty flag — and in the
concrete scenario, a root with child A at `(0,0)` and grandchild B at local
`(10,0)`, after `A.position` is set to `(5,5)`, `B.globalPosition` equals
`(15,5)`. -/
theorem c1_resolve_recomputes :
    (∀ (trig : α → α × α) (f n : Nat) (s : Store α) (i : Nat)
        (o : GameObject α), s i = some o → o.isDirty = true → DepthB s n i →
        n ≤ f → (∀ p, o.parent = some p → s p ≠ none) →
        ∃ o', updateTransform trig (f + 1) s i i = some o' ∧
          o'.localTransform = localTransformFormula trig o ∧
          o'.isDirty = false ∧ o'.position = o.position ∧
          o'.rotation = o.rotation ∧ o'.scale = o.scale ∧
          (o.parent = none → o'.worldTransform = o'.localTransform) ∧
          (∀ p, o.parent = some p →
            ∃ op, updateTransform trig f s p p = some op ∧
              o'.worldTransform = op.worldTransform.append o'.localTransform)) ∧
      ∀ trig : ℚ → ℚ × ℚ, trig 0 = (1, 0) →
        globalPosition trig 4 (c1Scenario trig) 2 = ⟨15, 5⟩ := by
  constructor
  · intro trig f n s i o hso hdirty hdepth hnf hpar
    cases hp : o.parent with
    | none =>
      refine ⟨{ o with localTransform := localTransformFormula trig o,
                       worldTransform := localTransformFormula trig o,
                       isDirty := false },
        ?_, rfl, rfl, rfl, rfl, rfl, fun _ => rfl,
        fun p hps => Option.noConfusion hps⟩
      simp [updateTransform, hso, hdirty, hp, setStore]
    | some p =>
      have hstep : parentOf s i = some p := by simp [parentOf, hso, hp]
      have hip : i ≠ p := by
        rintro rfl
        exact DepthB_no_cycle s n i hdepth (Relation.TransGen.single hstep)
      have hni : ¬OnParentChain s p i := fun h =>
        DepthB_no_cycle s n i hdepth (Relation.TransGen.head hstep h)
      have hs1i : updateTransform trig f s p i = s i :=
        updateTransform_local trig f s p i hip hni
      have hex : ∃ op, updateTransform trig f s p p = some op := by
        rcases updateTransform_shape trig f s p p with h | ⟨o'', lt2, wt2, hso2, h⟩
        · rw [h]
          cases hspo : s p with
          | none => exact absurd hspo (hpar p hp)
          | some u => exact ⟨u, rfl⟩
        · exact ⟨_, h⟩
      obtain ⟨op, hop⟩ := hex
      refine ⟨{ o with localTransform := localTransformFormula trig o,
                       worldTransform :=
                         op.worldTransform.append (localTransformFormula trig o),
                       isDirty := false },
        ?_, rfl, rfl, rfl, rfl, rfl,
        fun hnone => Option.noConfusion hnone, fun p2 hps => ?_⟩
      · simp only [updateTransform, hso, hdirty, Bool.not_true,
          Bool.false_eq_true, if_false, hp, hs1i, hop, setStore, if_pos rfl,
          if_true]
      · have hpp : p2 = p := (Option.some.inj hps).symm
        subst hpp
        exact ⟨op, hop, rfl⟩
  · intro trig h
    norm_num [globalPosition, c1Scenario, updateTransform, setPosition,
      addChild, setDirty, removeChild, threeNodes, newGameObject, setStore,
      mapStore, childrenOf, parentOf, localTransformFormula, Matrix2D.identity,
      Matrix2D.translate, Matrix2D.rotateCS, Matrix2D.scale, Matrix2D.append,
      Vec2.set, isDescendantOf, List.foldl, h]

/-- Witness for C1: a fresh root node (dirty, no parent) resolved with one
unit of fuel, plus the concrete grandchild scenario with the zero-rotation
cosine/sine oracle. -/
theorem c1_witness :
    (threeNodes 1 = some newGameObject ∧
        (newGameObject : GameObject ℚ).isDirty = true ∧
        DepthB threeNodes 0 1 ∧ trigZero 0 = (1, 0)) ∧
      (∃ o', updateTransform trigZero (0 + 1) threeNodes 1 1 = some o' ∧
        o'.localTransform = localTransformFormula trigZero newGameObject ∧
        o'.isDirty = false ∧
        o'.position = (newGameObject : GameObject ℚ).position ∧
        o'.rotation = (newGameObject : GameObject ℚ).rotation ∧
        o'.scale = (newGameObject : GameObject ℚ).scale ∧
        ((newGameObject : GameObject ℚ).parent = none →
          o'.worldTransform = o'.localTransform) ∧
        (∀ p, (newGameObject : GameObject ℚ).parent = some p →
          ∃ op, updateTransform trigZero 0 threeNodes p p = some op ∧
            o'.worldTransform = op.worldTransform.append o'.localTransform)) ∧
      globalPosition trigZero 4 (c1Scenario trigZero) 2 = ⟨15, 5⟩ :=
  ⟨⟨by decide, by decide, (by decide : parentOf threeNodes 1 = none), rfl⟩,
   (@c1_resolve_recomputes ℚ _).1 trigZero 0 0 threeNodes 1 newGameObject
     (by decide) (by decide) (by decide : parentOf threeNodes 1 = none) le_rfl
     (fun p h => by simp [newGameObject] at h),
   (@c1_resolve_recomputes ℚ _).2 trigZero rfl⟩

/-! ### Dirty-flag invariant machinery (C4) -/

theorem dirtyIn_some {s : Store α} {j : Nat} {o : GameObject α}
    (h : s j = some o) : dirtyIn s j ↔ o.isDirty = true := by
  constructor
  · intro hd; exact hd o h
  · intro hd o' h'
    rw [h] at h'
    obtain rfl := Option.some.inj h'
    exact hd

theorem markLe_refl (s : Store α) : MarkLe s s := fun _ => Or.inl rfl

theorem markLe_trans {s t u : Store α} (h1 : MarkLe s t) (h2 : MarkLe t u) :
    MarkLe s u := by
  intro j
  rcases h2 j with h | h <;> rcases h1 j with h' | h'
  · exact Or.inl (h.trans h')
  · exact Or.inr (h.trans h')
  · exact Or.inr (h' ▸ h)
  · right
    rw [h, h']
    cases s j with
    | none => rfl
    | some o => rfl

theorem markLe_childrenOf {s t : Store α} (h : MarkLe s t) (j : Nat) :
    childrenOf t j = childrenOf s j := by
  rcases h j with h' | h' <;> rw [childrenOf, h'] <;> cases hs : s j <;>
    simp [childrenOf, hs]

theorem markLe_parentOf {s t : Store α} (h : MarkLe s t) (j : Nat) :
    parentOf t j = parentOf s j := by
  rcases h j with h' | h' <;> rw [parentOf, h'] <;> cases hs : s j <;>
    simp [parentOf, hs]

theorem markLe_dirty_mono {s t : Store α} (h : MarkLe s t) {j : Nat}
    (hd : dirtyIn s j) : dirtyIn t j := by
  intro o' h'
  rcases h j with he | he
  · exact hd o' (he ▸ h')
  · rw [he] at h'
    cases hs : s j with
    | none => rw [hs] at h'; exact Option.noConfusion h'
    | some o =>
      rw [hs] at h'
      obtain rfl := Option.some.inj h'.symm
      rfl

theorem childRel_sub {s t : Store α}
    (h : ∀ j, childrenOf t j ⊆ childrenOf s j) {i j : Nat}
    (hc : ChildRel t i j) : ChildRel s i j := h i hc

theorem desc_sub {s t : Store α}
    (h : ∀ j, childrenOf t j ⊆ childrenOf s j) {i j : Nat}
    (hc : Desc t i j) : Desc s i j :=
  Relation.TransGen.mono (fun _ _ hr => childRel_sub h hr) hc

theorem inSubtree_sub {s t : Store α}
    (h : ∀ j, childrenOf t j ⊆ childrenOf s j) {i j : Nat}
    (hc : InSubtree t i j) : InSubtree s i j :=
  hc.imp id (desc_sub h)

theorem heightB_sub {s t : Store α}
    (h : ∀ j, childrenOf t j ⊆ childrenOf s j) :
    ∀ (n : Nat) (i : Nat), HeightB s n i → HeightB t n i := by
  intro n
  induction n with
  | zero =>
    intro i hh
    have he : childrenOf s i = [] := hh
    have hsub : childrenOf t i ⊆ ([] : List Nat) := he ▸ h i
    exact List.eq_nil_iff_forall_not_mem.mpr fun x hx =>
      List.not_mem_nil x (hsub hx)
  | succ n ih =>
    intro i hh
    exact fun j hj => ih j (hh j (h i hj))

theorem markLe_kids_sub {s t : Store α} (h : MarkLe s t) :
    ∀ j, childrenOf t j ⊆ childrenOf s j :=
  fun j => (markLe_childrenOf h j) ▸ List.Subset.refl _

theorem markLe_kids_sup {s t : Store α} (h : MarkLe s t) :
    ∀ j, childrenOf s j ⊆ childrenOf t j :=
  fun j => (markLe_childrenOf h j) ▸ List.Subset.refl _

/-- Within the subtree of a node that satisfies the local invariant and is
itself dirty, every descendant is dirty. -/
theorem dirty_desc {s : Store α} {i : Nat} (hL : LocalDC s i)
    (hd : dirtyIn s i) : ∀ j, Desc s i j → dirtyIn s j := by
  intro j hj
  induction hj with
  | single hr =>
    intro oj hoj
    cases hsi : s i with
    | none => exact absurd hr (by simp [ChildRel, childrenOf, hsi])
    | some o =>
      exact hL i (Or.inl rfl) o hsi ((dirtyIn_some hsi).mp hd)
        _ (by simpa [ChildRel, childrenOf, hsi] using hr) oj hoj
  | tail hb hr ihb =>
    rename_i b j2
    intro oj hoj
    cases hsb : s b with
    | none => exact absurd hr (by simp [ChildRel, childrenOf, hsb])
    | some ob =>
      exact hL b (Or.inr hb) ob hsb ((dirtyIn_some hsb).mp ihb)
        _ (by simpa [ChildRel, childrenOf, hsb] using hr) oj hoj

theorem heightB_desc {s : Store α} :
    ∀ (n i j : Nat), HeightB s n i → Desc s i j →
      ∃ m, m < n ∧ HeightB s m j := by
  intro n
  induction n with
  | zero =>
    intro i j hh hc
    have he : childrenOf s i = [] := hh
    rcases transGen_head_cases hc with h | ⟨b, hb, _⟩
    · exact absurd h (by simp [ChildRel, he])
    · exact absurd hb (by simp [ChildRel, he])
  | succ n ih =>
    intro i j hh hc
    rcases transGen_head_cases hc with h | ⟨b, hb, hc2⟩
    · exact ⟨n, Nat.lt_succ_self n, hh j h⟩
    · obtain ⟨m, hm, hj⟩ := ih b j (hh b hb) hc2
      exact ⟨m, Nat.lt_succ_of_lt hm, hj⟩

theorem heightB_no_cycle {s : Store α} :
    ∀ (n i : Nat), HeightB s n i → ¬Desc s i i := by
  intro n
  induction n using Nat.strong_induction_on with
  | _ n ih =>
    intro i hh hc
    obtain ⟨m, hm, hdm⟩ := heightB_desc n i i hh hc
    exact ih m hm i hdm hc

theorem inSubtree_extend {s : Store α} {i c j : Nat} (hc : ChildRel s i c)
    (hj : InSubtree s c j) : InSubtree s i j := by
  rcases hj with rfl | hj
  · exact Or.inr (Relation.TransGen.single hc)
  · exact Or.inr (Relation.TransGen.head hc hj)

theorem inSubtree_trans {s : Store α} {i j k : Nat} (h1 : InSubtree s i j)
    (h2 : InSubtree s j k) : InSubtree s i k := by
  rcases h1 with rfl | h1
  · exact h2
  · rcases h2 with rfl | h2
    · exact Or.inr h1
    · exact Or.inr (h1.trans h2)

theorem desc_decompose {s : Store α} {i j : Nat} (h : Desc s i j) :
    ∃ c, ChildRel s i c ∧ InSubtree s c j := by
  rcases transGen_head_cases h with h | ⟨b, hb, hc⟩
  · exact ⟨j, h, Or.inl rfl⟩
  · exact ⟨b, hb, Or.inr hc⟩

theorem setDirty_markLe : ∀ (f : Nat) (s : Store α) (i : Nat),
    MarkLe s (setDirty f s i) := by
  intro f
  induction f with
  | zero => intro s i; exact markLe_refl s
  | succ f ih =>
    intro s i
    cases hsi : s i with
    | none => simp only [setDirty, hsi]; exact markLe_refl s
    | some o =>
      cases hd : o.isDirty with
      | true => simp only [setDirty, hsi, hd, if_true]; exact markLe_refl s
      | false =>
        simp only [setDirty, hsi, hd, Bool.false_eq_true, if_false]
        have h0 : MarkLe s (setStore s i { o with isDirty := true }) := by
          intro j
          by_cases hj : j = i
          · subst hj; right; simp [setStore, hsi]
          · left; simp [setStore, hj]
        suffices haux : ∀ (cs : List Nat) (t : Store α), MarkLe s t →
            MarkLe s (cs.foldl (fun acc j => setDirty f acc j) t) from
          haux o.children _ h0
        intro cs
        induction cs with
        | nil => intro t ht; exact ht
        | cons c cs ihc =>
          intro t ht
          exact ihc _ (markLe_trans ht (ih t c))

theorem localDC_of_markLe {t0 t : Store α} {c : Nat} (hM : MarkLe t0 t)
    (hN : NewDirtyGood t0 t) (hL : LocalDC t0 c) : LocalDC t c := by
  intro j hj o htj ho k hk
  have hj0 : InSubtree t0 c j := inSubtree_sub (markLe_kids_sub hM) hj
  rcases hM j with he | he
  · rw [he] at htj
    exact markLe_dirty_mono hM (hL j hj0 o htj ho k hk)
  · cases h0 : t0 j with
    | none => rw [he, h0] at htj; exact Option.noConfusion htj
    | some o0 =>
      rw [he, h0] at htj
      obtain rfl := Option.some.inj htj
      cases hd0 : o0.isDirty with
      | true =>
        exact markLe_dirty_mono hM (hL j hj0 o0 h0 hd0 k hk)
      | false =>
        have hdj : dirtyIn t j := by
          intro o' h'
          rw [he, h0] at h'
          obtain rfl := Option.some.inj h'
          rfl
        have hnd : ¬dirtyIn t0 j := fun hz => by
          have := (dirtyIn_some h0).mp hz
          rw [hd0] at this
          exact Bool.noConfusion this
        refine hN j hdj hnd k (Or.inr (Relation.TransGen.single ?_))
        show k ∈ childrenOf t0 j
        simpa [childrenOf, h0] using hk

theorem setDirty_fold (f n : Nat) (t0 : Store α)
    (hcore : ∀ (t : Store α) (c : Nat), HeightB t n c → LocalDC t c →
        (∀ j, InSubtree t c j → dirtyIn (setDirty f t c) j) ∧
        (∀ j, ¬InSubtree t c j → setDirty f t c j = t j)) :
    ∀ (cs : List Nat) (t : Store α),
      (∀ c ∈ cs, HeightB t0 n c) → (∀ c ∈ cs, LocalDC t0 c) →
      MarkLe t0 t → NewDirtyGood t0 t →
      MarkLe t (cs.foldl (fun acc j => setDirty f acc j) t) ∧
        NewDirtyGood t0 (cs.foldl (fun acc j => setDirty f acc j) t) ∧
        (∀ c ∈ cs, ∀ j, InSubtree t0 c j →
          dirtyIn (cs.foldl (fun acc j => setDirty f acc j) t) j) ∧
        (∀ j, (∀ c ∈ cs, ¬InSubtree t0 c j) →
          (cs.foldl (fun acc j => setDirty f acc j) t) j = t j) := by
  intro cs
  induction cs with
  | nil =>
    intro t _ _ hM hN
    exact ⟨markLe_refl t, hN, fun c hc => absurd hc (List.not_mem_nil c),
      fun j _ => rfl⟩
  | cons c cs ih =>
    intro t hHB hLDC hM hN
    have hHBc : HeightB t n c :=
      heightB_sub (markLe_kids_sub hM) n c (hHB c (List.mem_cons_self c cs))
    have hLDCc : LocalDC t c :=
      localDC_of_markLe hM hN (hLDC c (List.mem_cons_self c cs))
    obtain ⟨P1, P2⟩ := hcore t c hHBc hLDCc
    have hM1 : MarkLe t (setDirty f t c) := setDirty_markLe f t c
    have hM01 : MarkLe t0 (setDirty f t c) := markLe_trans hM hM1
    have hN1 : NewDirtyGood t0 (setDirty f t c) := by
      intro j hdj hndj k hk
      by_cases hcj : InSubtree t c j
      · refine P1 k (inSubtree_trans hcj ?_)
        exact inSubtree_sub (markLe_kids_sup hM) hk
      · have he : setDirty f t c j = t j := P2 j hcj
        have hdj' : dirtyIn t j := by
          intro o' h'
          exact hdj o' (he ▸ h')
        rcases hM j with hej | hej
        · exact markLe_dirty_mono hM1 (hN j hdj' hndj k hk)
        · by_cases hd0 : dirtyIn t0 j
          · exact absurd hd0 hndj
          · exact markLe_dirty_mono hM1 (hN j hdj' hndj k hk)
    obtain ⟨F1, F2, F3, F4⟩ :=
      ih (setDirty f t c) (fun c' hc' => hHB c' (List.mem_cons_of_mem c hc'))
        (fun c' hc' => hLDC c' (List.mem_cons_of_mem c hc')) hM01 hN1
    refine ⟨markLe_trans hM1 F1, F2, ?_, ?_⟩
    · intro c' hc' j hj
      rcases List.mem_cons.mp hc' with rfl | hc2
      · have hj_t : InSubtree t c' j := inSubtree_sub (markLe_kids_sup hM) hj
        exact markLe_dirty_mono F1 (P1 j hj_t)
      · exact F3 c' hc2 j hj
    · intro j hj
      have h4 : (cs.foldl (fun acc j => setDirty f acc j) (setDirty f t c)) j =
          setDirty f t c j :=
        F4 j fun c' hc' => hj c' (List.mem_cons_of_mem c hc')
      rw [List.foldl_cons, h4]
      refine P2 j fun hcj => hj c (List.mem_cons_self c cs) ?_
      exact inSubtree_sub (markLe_kids_sub hM) hcj

theorem setDirty_core :
    ∀ (n f : Nat) (s : Store α) (i : Nat), n < f → HeightB s n i →
      LocalDC s i →
      (∀ j, InSubtree s i j → dirtyIn (setDirty f s i) j) ∧
      (∀ j, ¬InSubtree s i j → setDirty f s i j = s j) := by
  intro n
  induction n using Nat.strong_induction_on with
  | _ n ih =>
    intro f s i hnf hHB hLDC
    obtain ⟨f, rfl⟩ : ∃ f', f = f' + 1 := ⟨f - 1, by omega⟩
    cases hsi : s i with
    | none =>
      constructor
      · intro j hj
        rcases hj with rfl | hj
        · simp only [setDirty, hsi]
          intro o' h'
          rw [hsi] at h'
          exact Option.noConfusion h'
        · obtain ⟨c, hc, _⟩ := desc_decompose hj
          exact absurd hc (by simp [ChildRel, childrenOf, hsi])
      · intro j _; simp only [setDirty, hsi]
    | some o =>
      cases hd : o.isDirty with
      | true =>
        have hres : setDirty (f + 1) s i = s := by simp [setDirty, hsi, hd]
        constructor
        · intro j hj
          rcases hj with rfl | hj
          · rw [hres]; exact (dirtyIn_some hsi).mpr hd
          · rw [hres]; exact dirty_desc hLDC ((dirtyIn_some hsi).mpr hd) j hj
        · intro j _; rw [hres]
      | false =>
        have hstep : setDirty (f + 1) s i =
            o.children.foldl (fun acc j => setDirty f acc j)
              (setStore s i { o with isDirty := true }) := by
          simp [setDirty, hsi, hd]
        set t0 := setStore s i { o with isDirty := true } with ht0
        have hM0 : MarkLe s t0 := by
          intro j
          by_cases hj : j = i
          · subst hj; right; simp [ht0, setStore, hsi]
          · left; simp [ht0, setStore, hj]
        have hdirt0i : dirtyIn t0 i := by
          intro o' h'
          simp only [ht0, setStore, if_pos rfl] at h'
          obtain rfl := Option.some.inj h'.symm
          rfl
        have hmemkids : ∀ c, c ∈ o.children ↔ ChildRel s i c := by
          intro c; simp [ChildRel, childrenOf, hsi]
        cases hn : n with
        | zero =>
          subst hn
          have he : childrenOf s i = [] := hHB
          have he2 : o.children = [] := by simpa [childrenOf, hsi] using he
          rw [hstep, he2]
          constructor
          · intro j hj
            rcases hj with rfl | hj
            · exact hdirt0i
            · obtain ⟨c, hc, _⟩ := desc_decompose hj
              exact absurd hc (by simp [ChildRel, he])
          · intro j hj
            have hji : j ≠ i := fun h => hj (h ▸ Or.inl rfl)
            simp [ht0, setStore, hji]
        | succ m =>
          subst hn
          have hHBc : ∀ c ∈ o.children, HeightB s m c := by
            intro c hc
            exact hHB c (by simpa [childrenOf, hsi] using hc)
          have hHB0 : ∀ c ∈ o.children, HeightB t0 m c := fun c hc =>
            heightB_sub (markLe_kids_sub hM0) m c (hHBc c hc)
          have hLDC0 : ∀ c ∈ o.children, LocalDC t0 c := by
            intro c hc j hj oj htj hdj k hk
            have hj_s : InSubtree s c j :=
              inSubtree_sub (markLe_kids_sub hM0) hj
            have hCiC : ChildRel s i c := (hmemkids c).mp hc
            have hij : InSubtree s i j :=
              inSubtree_trans (Or.inr (Relation.TransGen.single hCiC)) hj_s
            by_cases hji : j = i
            · subst hji
              exfalso
              rcases hj_s with rfl | hdesc
              · exact heightB_no_cycle (m + 1) j hHB
                  (Relation.TransGen.single hCiC)
              · exact heightB_no_cycle (m + 1) j hHB
                  ((Relation.TransGen.single hCiC).trans hdesc)
            · have htj_s : s j = some oj := by
                simpa [ht0, setStore, hji] using htj
              exact markLe_dirty_mono hM0 (hLDC j hij oj htj_s hdj k hk)
          have hcore : ∀ (t : Store α) (c : Nat), HeightB t m c → LocalDC t c →
              (∀ j, InSubtree t c j → dirtyIn (setDirty f t c) j) ∧
              (∀ j, ¬InSubtree t c j → setDirty f t c j = t j) :=
            fun t c hH hL => ih m (by omega) f t c (by omega) hH hL
          have hN00 : NewDirtyGood t0 t0 := fun j hdj hndj => absurd hdj hndj
          obtain ⟨F1, F2, F3, F4⟩ :=
            setDirty_fold f m t0 hcore o.children t0 hHB0 hLDC0
              (markLe_refl t0) hN00
          rw [hstep]
          constructor
          · intro j hj
            rcases hj with rfl | hj
            · exact markLe_dirty_mono F1 hdirt0i
            · obtain ⟨c, hc, hcj⟩ := desc_decompose hj
              have hc' : c ∈ o.children := (hmemkids c).mpr hc
              have hcj0 : InSubtree t0 c j :=
                inSubtree_sub (markLe_kids_sup hM0) hcj
              exact F3 c hc' j hcj0
          · intro j hj
            have hji : j ≠ i := fun h => hj (h ▸ Or.inl rfl)
            have hnc : ∀ c ∈ o.children, ¬InSubtree t0 c j := by
              intro c hc hcj
              apply hj
              exact inSubtree_extend ((hmemkids c).mp hc)
                (inSubtree_sub (markLe_kids_sub hM0) hcj)
            rw [F4 j hnc]
            simp [ht0, setStore, hji]

theorem dirtyClosed_localDC {s : Store α} (h : DirtyClosed s) (i : Nat) :
    LocalDC s i :=
  fun j _ o hjo hd k hk => h j o hjo hd k hk

theorem setDirty_preserves_DC {s : Store α} {n f i : Nat}
    (hDC : DirtyClosed s) (hHB : HeightB s n i) (hnf : n < f) :
    DirtyClosed (setDirty f s i) := by
  obtain ⟨C1, C2⟩ := setDirty_core n f s i hnf hHB (dirtyClosed_localDC hDC i)
  have hM := setDirty_markLe f s i
  intro j oj hj hdj k hk
  by_cases hsub : InSubtree s i j
  · have hkc : k ∈ childrenOf (setDirty f s i) j := by
      simp [childrenOf, hj]; exact hk
    rw [markLe_childrenOf hM j] at hkc
    exact C1 k (inSubtree_trans hsub (Or.inr (Relation.TransGen.single hkc)))
  · have he : setDirty f s i j = s j := C2 j hsub
    rw [he] at hj
    exact markLe_dirty_mono hM (hDC j oj hj hdj k hk)

theorem sameDK_children {s t : Store α}
    (h : ∀ j, (t j).map (fun o => (o.isDirty, o.children)) =
        (s j).map fun o => (o.isDirty, o.children)) :
    ∀ j, childrenOf t j = childrenOf s j := by
  intro j
  have hj := h j
  cases ht : t j with
  | none =>
    cases hs : s j with
    | none => simp [childrenOf, ht, hs]
    | some o => rw [ht, hs] at hj; exact Option.noConfusion hj
  | some o =>
    cases hs : s j with
    | none => rw [ht, hs] at hj; exact Option.noConfusion hj
    | some o' =>
      rw [ht, hs] at hj
      have hch : o.children = o'.children :=
        congrArg Prod.snd (Option.some.inj hj)
      simp [childrenOf, ht, hs, hch]

theorem sameDK_dirtyIn {s t : Store α}
    (h : ∀ j, (t j).map (fun o => (o.isDirty, o.children)) =
        (s j).map fun o => (o.isDirty, o.children)) :
    ∀ j, dirtyIn t j ↔ dirtyIn s j := by
  intro j
  have hj := h j
  cases ht : t j with
  | none =>
    cases hs : s j with
    | none =>
      constructor
      · intro _ o' h'
        rw [hs] at h'
        exact Option.noConfusion h'
      · intro _ o' h'
        rw [ht] at h'
        exact Option.noConfusion h'
    | some o => rw [ht, hs] at hj; exact Option.noConfusion hj
  | some o =>
    cases hs : s j with
    | none => rw [ht, hs] at hj; exact Option.noConfusion hj
    | some o' =>
      rw [ht, hs] at hj
      have hde : o.isDirty = o'.isDirty :=
        congrArg Prod.fst (Option.some.inj hj)
      rw [dirtyIn_some ht, dirtyIn_some hs, hde]

theorem dirtyClosed_congr {s t : Store α}
    (h : ∀ j, (t j).map (fun o => (o.isDirty, o.children)) =
        (s j).map fun o => (o.isDirty, o.children))
    (hDC : DirtyClosed s) : DirtyClosed t := by
  intro j oj htj hdj k hk
  have hj := h j
  rw [htj] at hj
  cases hs : s j with
  | none => rw [hs] at hj; exact Option.noConfusion hj
  | some oj' =>
    rw [hs] at hj
    have hpair : (oj.isDirty, oj.children) = (oj'.isDirty, oj'.children) :=
      Option.some.inj hj
    rw [Prod.mk.injEq] at hpair
    obtain ⟨hde, hch⟩ := hpair
    exact (sameDK_dirtyIn h k).mpr
      (hDC j oj' hs (hde ▸ hdj) k (hch ▸ hk))

/-- The invariant survives a transition that only shrinks children lists
and preserves dirty flags and presence. -/
theorem dirtyClosed_shrink {s t : Store α}
    (h : ∀ j oj, t j = some oj → ∃ oj', s j = some oj' ∧
        oj.isDirty = oj'.isDirty ∧ oj.children ⊆ oj'.children)
    (h2 : ∀ j, dirtyIn s j → dirtyIn t j)
    (hDC : DirtyClosed s) : DirtyClosed t := by
  intro j oj htj hdj k hk
  obtain ⟨oj', hs, hde, hch⟩ := h j oj htj
  exact h2 k (hDC j oj' hs (hde ▸ hdj) k (hch hk))

/-- A height bound transfers to a store whose children lists agree on the
whole subtree. -/
theorem heightB_agree {u t : Store α} :
    ∀ (n c : Nat), (∀ j, InSubtree u c j → childrenOf t j = childrenOf u j) →
      HeightB u n c → HeightB t n c := by
  intro n
  induction n with
  | zero =>
    intro c hagree hu
    show childrenOf t c = []
    rw [hagree c (Or.inl rfl)]
    exact hu
  | succ n ih =>
    intro c hagree hu
    intro j hj
    rw [hagree c (Or.inl rfl)] at hj
    have hrel : ChildRel u c j := hj
    refine ih j (fun k hk => hagree k (inSubtree_trans
      (inSubtree_extend hrel (Or.inl rfl)) hk)) (hu j hj)

/-- Subtree membership transfers to a store whose children lists agree on
the whole subtree. -/
theorem inSubtree_agree {u t : Store α} {c : Nat}
    (hagree : ∀ j, InSubtree u c j → childrenOf t j = childrenOf u j) :
    ∀ j, InSubtree u c j → InSubtree t c j := by
  have hdesc : ∀ j, Desc u c j → Desc t c j := by
    intro j hj
    induction hj with
    | single hr =>
      refine Relation.TransGen.single ?_
      show _ ∈ childrenOf t c
      rw [hagree c (Or.inl rfl)]
      exact hr
    | tail hb hr ihb =>
      rename_i b j2
      refine Relation.TransGen.tail ihb ?_
      show j2 ∈ childrenOf t b
      rw [hagree b (Or.inr hb)]
      exact hr
  intro j hj
  exact hj.imp id (hdesc j)

/-- Adding `c` to the children of a node `i` outside `c`'s subtree does not
enlarge that subtree. -/
theorem inSubtree_avoid_new_edge {u t : Store α} {i c : Nat}
    (hkids : ∀ j, j ≠ i → childrenOf t j = childrenOf u j)
    (hkid_i : ∀ k, k ∈ childrenOf t i → k ∈ childrenOf u i ∨ k = c)
    (hni : ¬InSubtree u c i) :
    ∀ j, InSubtree t c j → InSubtree u c j := by
  have hdesc : ∀ j, Desc t c j → Desc u c j ∨ j = c := by
    intro j hj
    induction hj with
    | single hr =>
      rename_i b2
      by_cases hci : c = i
      · exact absurd (Or.inl hci.symm) hni
      · have hr' : b2 ∈ childrenOf t c := hr
        rw [hkids c hci] at hr'
        exact Or.inl (Relation.TransGen.single hr')
    | tail hb hr ihb =>
      rename_i b j2
      rcases ihb with hub | rfl
      · by_cases hbi : b = i
        · exact absurd (Or.inr (hbi ▸ hub)) hni
        · have hr' : j2 ∈ childrenOf t b := hr
          rw [hkids b hbi] at hr'
          exact Or.inl (Relation.TransGen.tail hub hr')
      · by_cases hbi : b = i
        · exact absurd (Or.inl hbi.symm) hni
        · have hr' : j2 ∈ childrenOf t b := hr
          rw [hkids b hbi] at hr'
          exact Or.inl (Relation.TransGen.single hr')
  intro j hj
  rcases hj with rfl | hj
  · exact Or.inl rfl
  · rcases hdesc j hj with h | rfl
    · exact Or.inr h
    · exact Or.inl rfl

theorem kids_sub_of_eq {s t : Store α}
    (h : ∀ j, childrenOf t j = childrenOf s j) :
    ∀ j, childrenOf t j ⊆ childrenOf s j := by
  intro j
  rw [h j]
  exact List.Subset.refl _

theorem kids_sup_of_eq {s t : Store α}
    (h : ∀ j, childrenOf t j = childrenOf s j) :
    ∀ j, childrenOf s j ⊆ childrenOf t j := by
  intro j
  rw [h j]
  exact List.Subset.refl _

theorem sameDK_setStore {s : Store α} {i : Nat} {o o' : GameObject α}
    (hsi : s i = some o) (hd : o'.isDirty = o.isDirty)
    (hc : o'.children = o.children) :
    ∀ j, ((setStore s i o') j).map (fun u => (u.isDirty, u.children)) =
      (s j).map fun u => (u.isDirty, u.children) := by
  intro j
  by_cases hj : j = i
  · subst hj; simp [setStore, hsi, hd, hc]
  · simp [setStore, hj]

theorem setStore_kids_eq {s : Store α} {i : Nat} {o o' : GameObject α}
    (hsi : s i = some o) (hc : o'.children = o.children) :
    ∀ j, childrenOf (setStore s i o') j = childrenOf s j := by
  intro j
  by_cases hj : j = i
  · subst hj; simp [childrenOf, setStore, hsi, hc]
  · simp [childrenOf, setStore, hj]

theorem vec2_eq_of_xy {w t : Vec2 α} (hx : w.x = t.x) (hy : w.y = t.y) :
    w = t := by
  cases w; cases t; simp_all

theorem setPosition_preserves (f n : Nat) (s : Store α) (i : Nat)
    (v : Vec2 α) (hDC : DirtyClosed s) (hHB : HeightB s n i) (hnf : n < f) :
    DirtyClosed (setPosition f s i v) ∧
      ∀ o, s i = some o → o.position ≠ v →
        ∀ j, InSubtree s i j → dirtyIn (setPosition f s i v) j := by
  cases hsi : s i with
  | none =>
    have hres : setPosition f s i v = s := by simp [setPosition, hsi]
    refine ⟨hres.symm ▸ hDC, fun o h => absurd h (by simp)⟩
  | some o =>
    by_cases hg : o.position.x = v.x ∧ o.position.y = v.y
    · have hset : o.position.set v = (o.position, false) := by
        rw [Vec2.set, if_pos hg]
      have hres : setPosition f s i v = s := by simp [setPosition, hsi, hset]
      refine ⟨hres.symm ▸ hDC, fun o2 h2 hne => ?_⟩
      obtain rfl := Option.some.inj h2
      exact absurd (vec2_eq_of_xy hg.1 hg.2) hne
    · have hset : o.position.set v = (v, true) := by
        rw [Vec2.set, if_neg hg]
      have hres : setPosition f s i v =
          setDirty f (setStore s i { o with position := v }) i := by
        simp [setPosition, hsi, hset]
      have hsame := @sameDK_setStore α _ s i o { o with position := v } hsi rfl rfl
      have hDC1 : DirtyClosed (setStore s i { o with position := v }) :=
        dirtyClosed_congr hsame hDC
      have hkids := @setStore_kids_eq α _ s i o { o with position := v } hsi rfl
      have hHB1 : HeightB (setStore s i { o with position := v }) n i :=
        heightB_sub (kids_sub_of_eq hkids) n i hHB
      obtain ⟨C1, _⟩ := setDirty_core n f _ i hnf hHB1
        (dirtyClosed_localDC hDC1 i)
      refine ⟨hres.symm ▸ setDirty_preserves_DC hDC1 hHB1 hnf,
        fun o2 h2 hne j hj => ?_⟩
      rw [hres]
      exact C1 j (inSubtree_sub (kids_sup_of_eq hkids) hj)

theorem setScale_preserves (f n : Nat) (s : Store α) (i : Nat)
    (v : Vec2 α) (hDC : DirtyClosed s) (hHB : HeightB s n i) (hnf : n < f) :
    DirtyClosed (setScale f s i v) ∧
      ∀ o, s i = some o → o.scale ≠ v →
        ∀ j, InSubtree s i j → dirtyIn (setScale f s i v) j := by
  cases hsi : s i with
  | none =>
    have hres : setScale f s i v = s := by simp [setScale, hsi]
    refine ⟨hres.symm ▸ hDC, fun o h => absurd h (by simp)⟩
  | some o =>
    by_cases hg : o.scale.x = v.x ∧ o.scale.y = v.y
    · have hset : o.scale.set v = (o.scale, false) := by
        rw [Vec2.set, if_pos hg]
      have hres : setScale f s i v = s := by simp [setScale, hsi, hset]
      refine ⟨hres.symm ▸ hDC, fun o2 h2 hne => ?_⟩
      obtain rfl := Option.some.inj h2
      exact absurd (vec2_eq_of_xy hg.1 hg.2) hne
    · have hset : o.scale.set v = (v, true) := by
        rw [Vec2.set, if_neg hg]
      have hres : setScale f s i v =
          setDirty f (setStore s i { o with scale := v }) i := by
        simp [setScale, hsi, hset]
      have hsame := @sameDK_setStore α _ s i o { o with scale := v } hsi rfl rfl
      have hDC1 : DirtyClosed (setStore s i { o with scale := v }) :=
        dirtyClosed_congr hsame hDC
      have hkids := @setStore_kids_eq α _ s i o { o with scale := v } hsi rfl
      have hHB1 : HeightB (setStore s i { o with scale := v }) n i :=
        heightB_sub (kids_sub_of_eq hkids) n i hHB
      obtain ⟨C1, _⟩ := setDirty_core n f _ i hnf hHB1
        (dirtyClosed_localDC hDC1 i)
      refine ⟨hres.symm ▸ setDirty_preserves_DC hDC1 hHB1 hnf,
        fun o2 h2 hne j hj => ?_⟩
      rw [hres]
      exact C1 j (inSubtree_sub (kids_sup_of_eq hkids) hj)

theorem setRotation_preserves (f n : Nat) (s : Store α) (i : Nat) (v : α)
    (hDC : DirtyClosed s) (hHB : HeightB s n i) (hnf : n < f) :
    DirtyClosed (setRotation f s i v) ∧
      ∀ o, s i = some o → o.rotation ≠ v →
        ∀ j, InSubtree s i j → dirtyIn (setRotation f s i v) j := by
  cases hsi : s i with
  | none =>
    have hres : setRotation f s i v = s := by simp [setRotation, hsi]
    refine ⟨hres.symm ▸ hDC, fun o h => absurd h (by simp)⟩
  | some o =>
    by_cases hg : o.rotation = v
    · have hres : setRotation f s i v = s := by simp [setRotation, hsi, hg]
      refine ⟨hres.symm ▸ hDC, fun o2 h2 hne => ?_⟩
      obtain rfl := Option.some.inj h2
      exact absurd hg hne
    · have hres : setRotation f s i v =
          setDirty f (setStore s i { o with rotation := v }) i := by
        simp [setRotation, hsi, hg]
      have hsame := @sameDK_setStore α _ s i o { o with rotation := v } hsi rfl rfl
      have hDC1 : DirtyClosed (setStore s i { o with rotation := v }) :=
        dirtyClosed_congr hsame hDC
      have hkids := @setStore_kids_eq α _ s i o { o with rotation := v } hsi rfl
      have hHB1 : HeightB (setStore s i { o with rotation := v }) n i :=
        heightB_sub (kids_sub_of_eq hkids) n i hHB
      obtain ⟨C1, _⟩ := setDirty_core n f _ i hnf hHB1
        (dirtyClosed_localDC hDC1 i)
      refine ⟨hres.symm ▸ setDirty_preserves_DC hDC1 hHB1 hnf,
        fun o2 h2 hne j hj => ?_⟩
      rw [hres]
      exact C1 j (inSubtree_sub (kids_sup_of_eq hkids) hj)

theorem mapStore_sameDK {s : Store α} {i : Nat} {g : GameObject α → GameObject α}
    (hd : ∀ o, (g o).isDirty = o.isDirty) (hc : ∀ o, (g o).children = o.children) :
    ∀ j, ((mapStore s i g) j).map (fun u => (u.isDirty, u.children)) =
      (s j).map fun u => (u.isDirty, u.children) := by
  intro j
  by_cases hj : j = i
  · subst hj
    cases hs : s j <;> simp [mapStore, hs, hd, hc]
  · simp [mapStore, hj]

theorem mapStore_kids_sub {s : Store α} {i : Nat}
    {g : GameObject α → GameObject α}
    (hc : ∀ o, (g o).children ⊆ o.children) :
    ∀ j, childrenOf (mapStore s i g) j ⊆ childrenOf s j := by
  intro j
  by_cases hj : j = i
  · subst hj
    cases hs : s j with
    | none => simp [childrenOf, mapStore, hs]
    | some o =>
      simp only [childrenOf, mapStore, if_pos rfl, hs, Option.map]
      exact hc o
  · simp only [childrenOf, mapStore, if_neg hj]
    exact List.Subset.refl _

theorem mapStore_kids_off {s : Store α} {i : Nat}
    {g : GameObject α → GameObject α} :
    ∀ j, j ≠ i → childrenOf (mapStore s i g) j = childrenOf s j := by
  intro j hj
  simp [childrenOf, mapStore, hj]

theorem mapStore_dirty_mono {s : Store α} {i : Nat}
    {g : GameObject α → GameObject α}
    (hd : ∀ o, o.isDirty = true → (g o).isDirty = true) :
    ∀ j, dirtyIn s j → dirtyIn (mapStore s i g) j := by
  intro j hdj o' h'
  by_cases hj : j = i
  · subst hj
    cases hs : s j with
    | none => simp [mapStore, hs] at h'
    | some o =>
      simp only [mapStore, if_pos rfl, hs, Option.map] at h'
      obtain rfl := Option.some.inj h'.symm
      exact hd o (hdj o hs)
  · simp only [mapStore, if_neg hj] at h'
    exact hdj o' h'

theorem mapStore_shrink_pack {s : Store α} {i : Nat}
    {g : GameObject α → GameObject α}
    (hd : ∀ o, (g o).isDirty = o.isDirty)
    (hc : ∀ o, (g o).children ⊆ o.children) :
    ∀ j oj, (mapStore s i g) j = some oj → ∃ oj', s j = some oj' ∧
      oj.isDirty = oj'.isDirty ∧ oj.children ⊆ oj'.children := by
  intro j oj h
  by_cases hj : j = i
  · subst hj
    cases hs : s j with
    | none => simp [mapStore, hs] at h
    | some o =>
      simp only [mapStore, if_pos rfl, hs, Option.map] at h
      obtain rfl := Option.some.inj h.symm
      exact ⟨o, rfl, hd o, hc o⟩
  · simp only [mapStore, if_neg hj] at h
    exact ⟨oj, h, rfl, List.Subset.refl _⟩

theorem removeChild_preserves (f n : Nat) (s : Store α) (p c : Nat)
    (hDC : DirtyClosed s) (hHB : HeightB s n c) (hnf : n < f) :
    DirtyClosed (removeChild f s p c) := by
  cases hsp : s p with
  | none => simpa [removeChild, hsp] using hDC
  | some o =>
    by_cases hmem : c ∈ o.children
    · have hres : removeChild f s p c =
          mapStore (setDirty f (mapStore (mapStore s c
            (fun oc => { oc with parent := none })) p
            (fun o2 => { o2 with children := o2.children.erase c })) c) p
            (fun o2 => { o2 with childIndexDirty := true }) := by
        simp [removeChild, hsp, hmem]
      rw [hres]
      have hDC1 : DirtyClosed (mapStore s c fun oc => { oc with parent := none }) :=
        dirtyClosed_congr (mapStore_sameDK (fun _ => rfl) fun _ => rfl) hDC
      have hDC2 : DirtyClosed (mapStore (mapStore s c
          (fun oc => { oc with parent := none })) p
          fun o2 => { o2 with children := o2.children.erase c }) :=
        dirtyClosed_shrink
          (mapStore_shrink_pack (fun _ => rfl) fun o2 => List.erase_subset c o2.children)
          (mapStore_dirty_mono fun _ h => h) hDC1
      have hkids1 := sameDK_children (@mapStore_sameDK α _ s c
        (fun oc => { oc with parent := none }) (fun _ => rfl) fun _ => rfl)
      have hsub2 : ∀ j, childrenOf (mapStore (mapStore s c
          (fun oc => { oc with parent := none })) p
          fun o2 => { o2 with children := o2.children.erase c }) j ⊆
            childrenOf s j := by
        intro j
        have h1 : childrenOf (mapStore (mapStore s c
            (fun oc => { oc with parent := none })) p
            (fun o2 => { o2 with children := o2.children.erase c })) j ⊆
            childrenOf (mapStore s c fun oc => { oc with parent := none }) j :=
          mapStore_kids_sub (fun o2 => List.erase_subset c o2.children) j
        rw [hkids1 j] at h1
        exact h1
      have hHB2 : HeightB (mapStore (mapStore s c
          (fun oc => { oc with parent := none })) p
          fun o2 => { o2 with children := o2.children.erase c }) n c :=
        heightB_sub hsub2 n c hHB
      exact dirtyClosed_congr
        (mapStore_sameDK (fun _ => rfl) fun _ => rfl)
        (setDirty_preserves_DC hDC2 hHB2 hnf)
    · have hres : removeChild f s p c =
          mapStore s p fun o2 => { o2 with childIndexDirty := true } := by
        simp [removeChild, hsp, hmem]
      rw [hres]
      exact dirtyClosed_congr (mapStore_sameDK (fun _ => rfl) fun _ => rfl) hDC

theorem removeChild_kids_sub (f : Nat) (s : Store α) (p c : Nat) :
    ∀ j, childrenOf (removeChild f s p c) j ⊆ childrenOf s j := by
  intro j
  cases hsp : s p with
  | none => simp [removeChild, hsp]
  | some o =>
    by_cases hmem : c ∈ o.children
    · have hres : removeChild f s p c =
          mapStore (setDirty f (mapStore (mapStore s c
            (fun oc => { oc with parent := none })) p
            (fun o2 => { o2 with children := o2.children.erase c })) c) p
            (fun o2 => { o2 with childIndexDirty := true }) := by
        simp [removeChild, hsp, hmem]
      rw [hres]
      have h1 : childrenOf (mapStore (setDirty f (mapStore (mapStore s c
          (fun oc => { oc with parent := none })) p
          (fun o2 => { o2 with children := o2.children.erase c })) c) p
          (fun o2 => { o2 with childIndexDirty := true })) j ⊆
          childrenOf (setDirty f (mapStore (mapStore s c
          (fun oc => { oc with parent := none })) p
          (fun o2 => { o2 with children := o2.children.erase c })) c) j :=
        @mapStore_kids_sub α _ _ p (fun o2 => { o2 with childIndexDirty := true })
          (fun o2 => List.Subset.refl o2.children) j
      rw [markLe_childrenOf (setDirty_markLe f _ c) j] at h1
      have h2 : childrenOf (mapStore (mapStore s c
          (fun oc => { oc with parent := none })) p
          (fun o2 => { o2 with children := o2.children.erase c })) j ⊆
          childrenOf (mapStore s c fun oc => { oc with parent := none }) j :=
        mapStore_kids_sub (fun o2 => List.erase_subset c o2.children) j
      rw [sameDK_children (@mapStore_sameDK α _ s c
        (fun oc => { oc with parent := none }) (fun _ => rfl) fun _ => rfl) j] at h2
      exact List.Subset.trans h1 h2
    · have hres : removeChild f s p c =
          mapStore s p fun o2 => { o2 with childIndexDirty := true } := by
        simp [removeChild, hsp, hmem]
      rw [hres]
      exact @mapStore_kids_sub α _ s p (fun o2 => { o2 with childIndexDirty := true })
        (fun o2 => List.Subset.refl o2.children) j

theorem removeChild_dirty_mono (f : Nat) (s : Store α) (p c : Nat) :
    ∀ j, dirtyIn s j → dirtyIn (removeChild f s p c) j := by
  intro j hd
  cases hsp : s p with
  | none => simpa [removeChild, hsp] using hd
  | some o =>
    by_cases hmem : c ∈ o.children
    · have hres : removeChild f s p c =
          mapStore (setDirty f (mapStore (mapStore s c
            (fun oc => { oc with parent := none })) p
            (fun o2 => { o2 with children := o2.children.erase c })) c) p
            (fun o2 => { o2 with childIndexDirty := true }) := by
        simp [removeChild, hsp, hmem]
      rw [hres]
      refine @mapStore_dirty_mono α _ _ p
        (fun o2 => { o2 with childIndexDirty := true }) (fun _ h => h) j ?_
      refine markLe_dirty_mono (setDirty_markLe f _ c) ?_
      refine @mapStore_dirty_mono α _ _ p
        (fun o2 => { o2 with children := o2.children.erase c }) (fun _ h => h) j ?_
      exact @mapStore_dirty_mono α _ s c
        (fun oc => { oc with parent := none }) (fun _ h => h) j hd
    · have hres : removeChild f s p c =
          mapStore s p fun o2 => { o2 with childIndexDirty := true } := by
        simp [removeChild, hsp, hmem]
      rw [hres]
      exact @mapStore_dirty_mono α _ s p
        (fun o2 => { o2 with childIndexDirty := true }) (fun _ h => h) j hd

theorem mapStore_dirty_iff {s : Store α} {i : Nat}
    {g : GameObject α → GameObject α}
    (hd : ∀ o, (g o).isDirty = o.isDirty) :
    ∀ j, dirtyIn (mapStore s i g) j ↔ dirtyIn s j := by
  intro j
  by_cases hj : j = i
  · subst hj
    cases hs : s j with
    | none =>
      have h1 : (mapStore s j g) j = none := by simp [mapStore, hs]
      constructor
      · intro _ o' h'
        rw [hs] at h'
        exact Option.noConfusion h'
      · intro _ o' h'
        rw [h1] at h'
        exact Option.noConfusion h'
    | some o =>
      have h1 : (mapStore s j g) j = some (g o) := by simp [mapStore, hs]
      rw [dirtyIn_some h1, dirtyIn_some hs, hd o]
  · have h1 : (mapStore s i g) j = s j := by simp [mapStore, hj]
    constructor
    · intro h o' h'
      exact h o' (h1.trans h')
    · intro h o' h'
      exact h o' (h1.symm.trans h')

/-- `removeChild p c` leaves the children lists of the whole subtree of `c`
untouched: the only erased edge points INTO `c`, and under a height bound
the erasure site cannot itself lie inside `c`'s subtree. -/
theorem removeChild_subtree_kids_agree (f n : Nat) (s : Store α) (p c : Nat)
    (hHB : HeightB s n c) :
    ∀ j, InSubtree s c j → childrenOf (removeChild f s p c) j = childrenOf s j := by
  intro j hj
  cases hsp : s p with
  | none => simp [removeChild, hsp]
  | some o =>
    by_cases hmem : c ∈ o.children
    · have hjp : j ≠ p := by
        rintro rfl
        have hrel : ChildRel s j c := by
          show c ∈ childrenOf s j
          simp [childrenOf, hsp]
          exact hmem
        rcases hj with rfl | hdesc
        · exact heightB_no_cycle n j hHB (Relation.TransGen.single hrel)
        · exact heightB_no_cycle n c hHB (Relation.TransGen.tail hdesc hrel)
      have hres : removeChild f s p c =
          mapStore (setDirty f (mapStore (mapStore s c
            (fun oc => { oc with parent := none })) p
            (fun o2 => { o2 with children := o2.children.erase c })) c) p
            (fun o2 => { o2 with childIndexDirty := true }) := by
        simp [removeChild, hsp, hmem]
      rw [hres]
      rw [sameDK_children (@mapStore_sameDK α _ _ p
        (fun o2 => { o2 with childIndexDirty := true }) (fun _ => rfl) fun _ => rfl) j]
      rw [markLe_childrenOf (setDirty_markLe f _ c) j]
      rw [@mapStore_kids_off α _ _ p
        (fun o2 => { o2 with children := o2.children.erase c }) j hjp]
      rw [sameDK_children (@mapStore_sameDK α _ s c
        (fun oc => { oc with parent := none }) (fun _ => rfl) fun _ => rfl) j]
    · have hres : removeChild f s p c =
          mapStore s p fun o2 => { o2 with childIndexDirty := true } := by
        simp [removeChild, hsp, hmem]
      rw [hres]
      exact sameDK_children (@mapStore_sameDK α _ s p
        (fun o2 => { o2 with childIndexDirty := true }) (fun _ => rfl) fun _ => rfl) j

/-- Core of `addChild` past the cycle guard: starting from the store `s1`
left by the optional detach from the old parent, re-pointing the child,
appending it to the new parent's children and dirtying its subtree
preserves down-closedness and marks the whole subtree of `c` dirty. -/
theorem addChild_core (f n : Nat) (s s1 : Store α) (i c : Nat)
    (hDC1 : DirtyClosed s1)
    (hkidsub : ∀ j, childrenOf s1 j ⊆ childrenOf s j)
    (hagree : ∀ j, InSubtree s c j → childrenOf s1 j = childrenOf s j)
    (hHB : HeightB s n c) (hnf : n < f) (hni : ¬InSubtree s c i) :
    DirtyClosed (mapStore (setDirty f (mapStore (mapStore s1 c
        (fun o => { o with parent := some i })) i
        (fun o => { o with children := o.children ++ [c] })) c) i
        (fun o => { o with childIndexDirty := true })) ∧
    ∀ j, InSubtree s c j →
      dirtyIn (mapStore (setDirty f (mapStore (mapStore s1 c
        (fun o => { o with parent := some i })) i
        (fun o => { o with children := o.children ++ [c] })) c) i
        (fun o => { o with childIndexDirty := true })) j := by
  set s2 := mapStore s1 c (fun o => { o with parent := some i }) with hs2def
  set s3 := mapStore s2 i (fun o => { o with children := o.children ++ [c] }) with hs3def
  have hsame12 : ∀ j, (s2 j).map (fun u => (u.isDirty, u.children)) =
      (s1 j).map fun u => (u.isDirty, u.children) :=
    @mapStore_sameDK α _ s1 c (fun o => { o with parent := some i })
      (fun _ => rfl) fun _ => rfl
  have hDC2 : DirtyClosed s2 := dirtyClosed_congr hsame12 hDC1
  have hkids12 : ∀ j, childrenOf s2 j = childrenOf s1 j := sameDK_children hsame12
  have hsub2s : ∀ j, childrenOf s2 j ⊆ childrenOf s j := by
    intro j
    rw [hkids12 j]
    exact hkidsub j
  have hagree2 : ∀ j, InSubtree s c j → childrenOf s2 j = childrenOf s j := by
    intro j hj
    rw [hkids12 j, hagree j hj]
  have hsubS2 : ∀ j, InSubtree s c j → InSubtree s2 c j :=
    inSubtree_agree hagree2
  have hni2 : ¬InSubtree s2 c i := fun h => hni (inSubtree_sub hsub2s h)
  have hkids3_off : ∀ j, j ≠ i → childrenOf s3 j = childrenOf s2 j := by
    intro j hj
    exact @mapStore_kids_off α _ s2 i
      (fun o => { o with children := o.children ++ [c] }) j hj
  have hagree3 : ∀ j, InSubtree s2 c j → childrenOf s3 j = childrenOf s2 j := by
    intro j hj
    exact hkids3_off j fun h => hni2 (h ▸ hj)
  have hkid_i : ∀ k, k ∈ childrenOf s3 i → k ∈ childrenOf s2 i ∨ k = c := by
    intro k hkmem
    cases hs2i : s2 i with
    | none =>
      rw [hs3def] at hkmem
      simp [childrenOf, mapStore, hs2i] at hkmem
    | some o2 =>
      have he : childrenOf s3 i = o2.children ++ [c] := by
        rw [hs3def]
        simp [childrenOf, mapStore, hs2i]
      rw [he] at hkmem
      rcases List.mem_append.mp hkmem with h | h
      · refine Or.inl ?_
        show k ∈ childrenOf s2 i
        simp [childrenOf, hs2i]
        exact h
      · exact Or.inr (by simpa using h)
  have hback3 : ∀ j, InSubtree s3 c j → InSubtree s2 c j :=
    inSubtree_avoid_new_edge hkids3_off hkid_i hni2
  have hsubS3 : ∀ j, InSubtree s c j → InSubtree s3 c j := by
    intro j hj
    exact inSubtree_agree hagree3 j (hsubS2 j hj)
  have hHB1 : HeightB s1 n c := heightB_agree n c hagree hHB
  have hHB2 : HeightB s2 n c := heightB_sub (kids_sub_of_eq hkids12) n c hHB1
  have hHB3 : HeightB s3 n c := heightB_agree n c hagree3 hHB2
  have hdiff23 : ∀ k, dirtyIn s2 k → dirtyIn s3 k := by
    intro k hk
    exact (@mapStore_dirty_iff α _ s2 i
      (fun o => { o with children := o.children ++ [c] }) (fun _ => rfl) k).mpr hk
  have hLDC3 : LocalDC s3 c := by
    intro j hj oj hj3 hdj k hk
    have hj2 : InSubtree s2 c j := hback3 j hj
    have hji : j ≠ i := fun h => hni2 (h ▸ hj2)
    have hj2' : s2 j = some oj := by
      rw [hs3def] at hj3
      simpa [mapStore, hji] using hj3
    exact hdiff23 k (hDC2 j oj hj2' hdj k hk)
  obtain ⟨C1, C2⟩ := setDirty_core n f s3 c hnf hHB3 hLDC3
  have hM34 : MarkLe s3 (setDirty f s3 c) := setDirty_markLe f s3 c
  have hDC4 : DirtyClosed (setDirty f s3 c) := by
    intro j oj hj4 hdj k hk
    by_cases hjsub : InSubtree s3 c j
    · have hkch : k ∈ childrenOf (setDirty f s3 c) j := by
        simp only [childrenOf, hj4]
        exact hk
      rw [markLe_childrenOf hM34 j] at hkch
      exact C1 k (inSubtree_trans hjsub (Or.inr (Relation.TransGen.single hkch)))
    · have hj3 : s3 j = some oj := (C2 j hjsub).symm.trans hj4
      by_cases hji : j = i
      · subst hji
        cases hs2i : s2 j with
        | none =>
          rw [hs3def] at hj3
          simp [mapStore, hs2i] at hj3
        | some o2 =>
          have hsome : s3 j = some { o2 with children := o2.children ++ [c] } := by
            rw [hs3def]
            simp [mapStore, hs2i]
          rw [hj3] at hsome
          obtain rfl := Option.some.inj hsome
          rcases List.mem_append.mp hk with hk2 | hk2
          · exact markLe_dirty_mono hM34 (hdiff23 k (hDC2 j o2 hs2i hdj k hk2))
          · obtain rfl := by simpa using hk2
            exact C1 k (Or.inl rfl)
      · have hj2 : s2 j = some oj := by
          rw [hs3def] at hj3
          simpa [mapStore, hji] using hj3
        exact markLe_dirty_mono hM34 (hdiff23 k (hDC2 j oj hj2 hdj k hk))
  constructor
  · exact dirtyClosed_congr (@mapStore_sameDK α _ (setDirty f s3 c) i
      (fun o => { o with childIndexDirty := true }) (fun _ => rfl) fun _ => rfl) hDC4
  · intro j hj
    exact (@mapStore_dirty_iff α _ (setDirty f s3 c) i
      (fun o => { o with childIndexDirty := true }) (fun _ => rfl) j).mpr
      (C1 j (hsubS3 j hj))

/-- `addChild` preserves down-closedness, and on success (no cycle error)
leaves the added child and all of its descendants dirty. -/
theorem addChild_preserves (f n : Nat) (s : Store α) (i c : Nat)
    (hDC : DirtyClosed s) (hHB : HeightB s n c) (hnf : n < f)
    (hni : ¬InSubtree s c i) :
    DirtyClosed (addChild f s i c).1 ∧
      ((addChild f s i c).2 = none →
        ∀ j, InSubtree s c j → dirtyIn (addChild f s i c).1 j) := by
  by_cases hguard : c = i ∨ isDescendantOf f s i c = true
  · have hres : addChild f s i c = (s, some EngineError.cycleError) := by
      unfold addChild
      rw [if_pos hguard]
    rw [hres]
    exact ⟨hDC, fun h => Option.noConfusion h⟩
  · cases hpc : parentOf s c with
    | none =>
      have hres : addChild f s i c =
          (mapStore (setDirty f (mapStore (mapStore s c
            (fun o => { o with parent := some i })) i
            (fun o => { o with children := o.children ++ [c] })) c) i
            (fun o => { o with childIndexDirty := true }), none) := by
        unfold addChild
        rw [if_neg hguard]
        simp [hpc]
      obtain ⟨hDCf, hmark⟩ := addChild_core f n s s i c hDC
        (fun j => List.Subset.refl _) (fun j _ => rfl) hHB hnf hni
      rw [hres]
      exact ⟨hDCf, fun _ => hmark⟩
    | some p =>
      have hres : addChild f s i c =
          (mapStore (setDirty f (mapStore (mapStore
            (removeChild f s p c) c
            (fun o => { o with parent := some i })) i
            (fun o => { o with children := o.children ++ [c] })) c) i
            (fun o => { o with childIndexDirty := true }), none) := by
        unfold addChild
        rw [if_neg hguard]
        simp [hpc]
      obtain ⟨hDCf, hmark⟩ := addChild_core f n s (removeChild f s p c) i c
        (removeChild_preserves f n s p c hDC hHB hnf)
        (removeChild_kids_sub f s p c)
        (removeChild_subtree_kids_agree f n s p c hHB) hHB hnf hni
      rw [hres]
      exact ⟨hDCf, fun _ => hmark⟩

/-- After a transform resolve with positive fuel, the target node itself is
clean. -/
theorem UT_clears_target (trig : α → α × α) (f : Nat) (s : Store α) (i : Nat)
    {o' : GameObject α} (hf : 0 < f)
    (h : (updateTransform trig f s i) i = some o') : o'.isDirty = false := by
  obtain ⟨f, rfl⟩ : ∃ f2, f = f2 + 1 := ⟨f - 1, by omega⟩
  cases hsi : s i with
  | none =>
    rw [show updateTransform trig (f + 1) s i = s by
      simp [updateTransform, hsi]] at h
    rw [hsi] at h
    exact Option.noConfusion h
  | some o =>
    cases hd : o.isDirty with
    | false =>
      rw [show updateTransform trig (f + 1) s i = s by
        simp [updateTransform, hsi, hd]] at h
      rw [hsi] at h
      obtain rfl := Option.some.inj h
      exact hd
    | true =>
      cases hp : o.parent with
      | none =>
        have hres : updateTransform trig (f + 1) s i =
            setStore s i { o with
              localTransform := localTransformFormula trig o,
              worldTransform := localTransformFormula trig o,
              isDirty := false } := by
          simp [updateTransform, hsi, hd, hp]
        rw [hres] at h
        have hRi : (setStore s i { o with
            localTransform := localTransformFormula trig o,
            worldTransform := localTransformFormula trig o,
            isDirty := false }) i = some { o with
            localTransform := localTransformFormula trig o,
            worldTransform := localTransformFormula trig o,
            isDirty := false } := by
          simp [setStore]
        obtain rfl := Option.some.inj (hRi.symm.trans h)
        rfl
      | some p =>
        cases hs1i : updateTransform trig f s p i with
        | none =>
          have hres : updateTransform trig (f + 1) s i =
              updateTransform trig f s p := by
            simp [updateTransform, hsi, hd, hp, hs1i]
          rw [hres, hs1i] at h
          exact Option.noConfusion h
        | some o1 =>
          cases ho1p : o1.parent with
          | none =>
            have hres : updateTransform trig (f + 1) s i =
                setStore (updateTransform trig f s p) i { o1 with
                  localTransform := localTransformFormula trig o1,
                  worldTransform := localTransformFormula trig o1,
                  isDirty := false } := by
              simp [updateTransform, hsi, hd, hp, hs1i, ho1p]
            rw [hres] at h
            have hRi : (setStore (updateTransform trig f s p) i { o1 with
                localTransform := localTransformFormula trig o1,
                worldTransform := localTransformFormula trig o1,
                isDirty := false }) i = some { o1 with
                localTransform := localTransformFormula trig o1,
                worldTransform := localTransformFormula trig o1,
                isDirty := false } := by
              simp [setStore]
            obtain rfl := Option.some.inj (hRi.symm.trans h)
            rfl
          | some p2 =>
            cases hsp2 : updateTransform trig f s p p2 with
            | none =>
              have hres : updateTransform trig (f + 1) s i =
                  setStore (updateTransform trig f s p) i { o1 with
                    localTransform := localTransformFormula trig o1,
                    worldTransform := localTransformFormula trig o1,
                    isDirty := false } := by
                simp [updateTransform, hsi, hd, hp, hs1i, ho1p, hsp2]
              rw [hres] at h
              have hRi : (setStore (updateTransform trig f s p) i { o1 with
                  localTransform := localTransformFormula trig o1,
                  worldTransform := localTransformFormula trig o1,
                  isDirty := false }) i = some { o1 with
                  localTransform := localTransformFormula trig o1,
                  worldTransform := localTransformFormula trig o1,
                  isDirty := false } := by
                simp [setStore]
              obtain rfl := Option.some.inj (hRi.symm.trans h)
              rfl
            | some op =>
              have hres : updateTransform trig (f + 1) s i =
                  setStore (updateTransform trig f s p) i { o1 with
                    localTransform := localTransformFormula trig o1,
                    worldTransform :=
                      op.worldTransform.append (localTransformFormula trig o1),
                    isDirty := false } := by
                simp [updateTransform, hsi, hd, hp, hs1i, ho1p, hsp2]
              rw [hres] at h
              have hRi : (setStore (updateTransform trig f s p) i { o1 with
                  localTransform := localTransformFormula trig o1,
                  worldTransform :=
                    op.worldTransform.append (localTransformFormula trig o1),
                  isDirty := false }) i = some { o1 with
                  localTransform := localTransformFormula trig o1,
                  worldTransform :=
                    op.worldTransform.append (localTransformFormula trig o1),
                  isDirty := false } := by
                simp [setStore]
              obtain rfl := Option.some.inj (hRi.symm.trans h)
              rfl

/-- `updateTransform` preserves down-closedness of the dirty flag: it only
ever clears flags along the parent chain of its target, bottom-up, so under
a depth bound and a consistent child/parent table no dirty node is left
with a clean child. -/
theorem updateTransform_preserves_DC (trig : α → α × α) :
    ∀ (f n : Nat) (s : Store α) (i : Nat), DepthB s n i → n < f →
      DirtyClosed s → ChildParent s →
      DirtyClosed (updateTransform trig f s i) := by
  intro f
  induction f with
  | zero =>
    intro n s i _ hnf _ _
    omega
  | succ f ih =>
    intro n s i hDB hnf hDC hCP
    cases hsi : s i with
    | none => simpa [updateTransform, hsi] using hDC
    | some o =>
      cases hd : o.isDirty with
      | false => simpa [updateTransform, hsi, hd] using hDC
      | true =>
        cases hp : o.parent with
        | none =>
          have hres : updateTransform trig (f + 1) s i =
              setStore s i { o with
                localTransform := localTransformFormula trig o,
                worldTransform := localTransformFormula trig o,
                isDirty := false } := by
            simp [updateTransform, hsi, hd, hp]
          rw [hres]
          intro j oj hj hdj k hk
          by_cases hji : j = i
          · subst hji
            have hRi : (setStore s j { o with
                localTransform := localTransformFormula trig o,
                worldTransform := localTransformFormula trig o,
                isDirty := false }) j = some { o with
                localTransform := localTransformFormula trig o,
                worldTransform := localTransformFormula trig o,
                isDirty := false } := by
              simp [setStore]
            obtain rfl := Option.some.inj (hRi.symm.trans hj)
            exact Bool.noConfusion hdj
          · have hj' : s j = some oj := by
              simpa [setStore, hji] using hj
            have hdk : dirtyIn s k := hDC j oj hj' hdj k hk
            intro ok hok
            by_cases hki : k = i
            · subst hki
              have hpar : o.parent = some j := hCP j oj hj' k hk o hsi
              rw [hp] at hpar
              exact Option.noConfusion hpar
            · have hsk : (setStore s i { o with
                  localTransform := localTransformFormula trig o,
                  worldTransform := localTransformFormula trig o,
                  isDirty := false }) k = s k := by
                simp [setStore, hki]
              exact hdk ok (hsk.symm.trans hok)
        | some p =>
          obtain ⟨m, rfl⟩ : ∃ m, n = m + 1 := by
            cases n with
            | zero =>
              exfalso
              have hz : parentOf s i = none := hDB
              rw [show parentOf s i = some p by simp [parentOf, hsi, hp]] at hz
              exact Option.noConfusion hz
            | succ m => exact ⟨m, rfl⟩
          have hDBp : DepthB s m p := hDB p (by simp [parentOf, hsi, hp])
          have hDC1 : DirtyClosed (updateTransform trig f s p) :=
            ih m s p hDBp (by omega) hDC hCP
          have key : ∀ (lt wt : Matrix2D α) (o1 : GameObject α),
              updateTransform trig f s p i = some o1 →
              DirtyClosed (setStore (updateTransform trig f s p) i
                { o1 with localTransform := lt, worldTransform := wt, isDirty := false }) := by
            intro lt wt o1 hs1i
            intro j oj hj hdj k hk
            by_cases hji : j = i
            · subst hji
              have hRi : (setStore (updateTransform trig f s p) j
                  { o1 with localTransform := lt, worldTransform := wt, isDirty := false }) j = some
                  { o1 with localTransform := lt, worldTransform := wt, isDirty := false } := by
                simp [setStore]
              obtain rfl := Option.some.inj (hRi.symm.trans hj)
              exact Bool.noConfusion hdj
            · have hj1 : updateTransform trig f s p j = some oj := by
                simpa [setStore, hji] using hj
              have hdk1 : dirtyIn (updateTransform trig f s p) k :=
                hDC1 j oj hj1 hdj k hk
              intro ok hok
              by_cases hki : k = i
              · exfalso
                subst hki
                rcases updateTransform_shape trig f s p j with hsh |
                    ⟨o2, lt2, wt2, hsj2, hsh⟩
                · have hsz : s j = some oj := hsh.symm.trans hj1
                  have hpar : o.parent = some j := hCP j oj hsz k hk o hsi
                  rw [hp] at hpar
                  obtain rfl := Option.some.inj hpar
                  have hclean := UT_clears_target trig f s p (by omega) hj1
                  rw [hclean] at hdj
                  exact Bool.noConfusion hdj
                · rw [hj1] at hsh
                  obtain rfl := Option.some.inj hsh
                  exact Bool.noConfusion hdj
              · have hsk : (setStore (updateTransform trig f s p) i
                    { o1 with localTransform := lt, worldTransform := wt, isDirty := false }) k =
                    updateTransform trig f s p k := by
                  simp [setStore, hki]
                exact hdk1 ok (hsk.symm.trans hok)
          cases hs1i : updateTransform trig f s p i with
          | none =>
            have hres : updateTransform trig (f + 1) s i =
                updateTransform trig f s p := by
              simp [updateTransform, hsi, hd, hp, hs1i]
            rw [hres]
            exact hDC1
          | some o1 =>
            cases ho1p : o1.parent with
            | none =>
              have hres : updateTransform trig (f + 1) s i =
                  setStore (updateTransform trig f s p) i { o1 with
                    localTransform := localTransformFormula trig o1,
                    worldTransform := localTransformFormula trig o1,
                    isDirty := false } := by
                simp [updateTransform, hsi, hd, hp, hs1i, ho1p]
              rw [hres]
              exact key _ _ o1 hs1i
            | some p2 =>
              cases hsp2 : updateTransform trig f s p p2 with
              | none =>
                have hres : updateTransform trig (f + 1) s i =
                    setStore (updateTransform trig f s p) i { o1 with
                      localTransform := localTransformFormula trig o1,
                      worldTransform := localTransformFormula trig o1,
                      isDirty := false } := by
                  simp [updateTransform, hsi, hd, hp, hs1i, ho1p, hsp2]
                rw [hres]
                exact key _ _ o1 hs1i
              | some op =>
                have hres : updateTransform trig (f + 1) s i =
                    setStore (updateTransform trig f s p) i { o1 with
                      localTransform := localTransformFormula trig o1,
                      worldTransform :=
                        op.worldTransform.append (localTransformFormula trig o1),
                      isDirty := false } := by
                  simp [updateTransform, hsi, hd, hp, hs1i, ho1p, hsp2]
                rw [hres]
                exact key _ _ o1 hs1i

/-- **C4.**  The dirty-flag invariant — if a node's `isDirty` flag is set
then the flags of ALL of its descendants are set — is preserved by every
store-mutating node operation: `setDirty`, the `position`/`scale`/
`rotation` setters, `removeChild`, `addChild` and `updateTransform`.
Consequently `setDirty`, a setter that actually changes its field, and a
successful reparent (`addChild` returning no cycle error) leave the target
node and all of its descendants marked dirty, even though `setDirty` stops
recursing at a node that is already dirty. -/
theorem c4_dirty_down_closed (trig : α → α × α) (f n m : Nat) (s : Store α)
    (i c : Nat) (vp vs : Vec2 α) (vr : α)
    (hDC : DirtyClosed s) (hHBi : HeightB s n i) (hHBc : HeightB s n c)
    (hnf : n < f) (hni : ¬InSubtree s c i)
    (hDB : DepthB s m i) (hmf : m < f) (hCP : ChildParent s) :
    (DirtyClosed (setDirty f s i) ∧
      ∀ j, InSubtree s i j → dirtyIn (setDirty f s i) j) ∧
    (DirtyClosed (setPosition f s i vp) ∧
      ∀ o, s i = some o → o.position ≠ vp →
        ∀ j, InSubtree s i j → dirtyIn (setPosition f s i vp) j) ∧
    (DirtyClosed (setScale f s i vs) ∧
      ∀ o, s i = some o → o.scale ≠ vs →
        ∀ j, InSubtree s i j → dirtyIn (setScale f s i vs) j) ∧
    (DirtyClosed (setRotation f s i vr) ∧
      ∀ o, s i = some o → o.rotation ≠ vr →
        ∀ j, InSubtree s i j → dirtyIn (setRotation f s i vr) j) ∧
    DirtyClosed (removeChild f s i c) ∧
    (DirtyClosed (addChild f s i c).1 ∧
      ((addChild f s i c).2 = none →
        ∀ j, InSubtree s c j → dirtyIn (addChild f s i c).1 j)) ∧
    DirtyClosed (updateTransform trig f s i) := by
  refine ⟨⟨setDirty_preserves_DC hDC hHBi hnf, ?_⟩,
    setPosition_preserves f n s i vp hDC hHBi hnf,
    setScale_preserves f n s i vs hDC hHBi hnf,
    setRotation_preserves f n s i vr hDC hHBi hnf,
    removeChild_preserves f n s i c hDC hHBc hnf,
    addChild_preserves f n s i c hDC hHBc hnf hni,
    updateTransform_preserves_DC trig f m s i hDB hmf hDC hCP⟩
  obtain ⟨C1, _⟩ := setDirty_core n f s i hnf hHBi (dirtyClosed_localDC hDC i)
  exact C1

/-- Witness for C4 at the concrete three-node store. -/
theorem c4_witness :
    (DirtyClosed (setDirty 1 threeNodes 0) ∧
      ∀ j, InSubtree threeNodes 0 j → dirtyIn (setDirty 1 threeNodes 0) j) ∧
    (DirtyClosed (setPosition 1 threeNodes 0 ⟨5, 5⟩) ∧
      ∀ o, threeNodes 0 = some o → o.position ≠ ⟨5, 5⟩ →
        ∀ j, InSubtree threeNodes 0 j →
          dirtyIn (setPosition 1 threeNodes 0 ⟨5, 5⟩) j) ∧
    (DirtyClosed (setScale 1 threeNodes 0 ⟨2, 3⟩) ∧
      ∀ o, threeNodes 0 = some o → o.scale ≠ ⟨2, 3⟩ →
        ∀ j, InSubtree threeNodes 0 j →
          dirtyIn (setScale 1 threeNodes 0 ⟨2, 3⟩) j) ∧
    (DirtyClosed (setRotation 1 threeNodes 0 1) ∧
      ∀ o, threeNodes 0 = some o → o.rotation ≠ 1 →
        ∀ j, InSubtree threeNodes 0 j →
          dirtyIn (setRotation 1 threeNodes 0 1) j) ∧
    DirtyClosed (removeChild 1 threeNodes 0 1) ∧
    (DirtyClosed (addChild 1 threeNodes 0 1).1 ∧
      ((addChild 1 threeNodes 0 1).2 = none →
        ∀ j, InSubtree threeNodes 1 j →
          dirtyIn (addChild 1 threeNodes 0 1).1 j)) ∧
    DirtyClosed (updateTransform trigZero 1 threeNodes 0) :=
  c4_dirty_down_closed trigZero 1 0 0 threeNodes 0 1 ⟨5, 5⟩ ⟨2, 3⟩ 1
    (by
      intro j o hj hd k hk
      by_cases h2 : j ≤ 2
      · rw [show threeNodes j = some newGameObject from by
          simp [threeNodes, h2]] at hj
        obtain rfl := Option.some.inj hj.symm
        simp [newGameObject] at hk
      · rw [show threeNodes j = none from by simp [threeNodes, h2]] at hj
        exact Option.noConfusion hj)
    (show childrenOf threeNodes 0 = [] by decide)
    (show childrenOf threeNodes 1 = [] by decide)
    (by decide)
    (by
      rintro (h | h)
      · exact absurd h (by decide)
      · obtain ⟨c0, hc0, _⟩ := desc_decompose h
        have h2 : c0 ∈ childrenOf threeNodes 1 := hc0
        rw [show childrenOf threeNodes 1 = [] by decide] at h2
        exact List.not_mem_nil c0 h2)
    (show parentOf threeNodes 0 = none by decide)
    (by decide)
    (by
      intro j oj hj k hk ok hok
      by_cases h2 : j ≤ 2
      · rw [show threeNodes j = some newGameObject from by
          simp [threeNodes, h2]] at hj
        obtain rfl := Option.some.inj hj.symm
        simp [newGameObject] at hk
      · rw [show threeNodes j = none from by simp [threeNodes, h2]] at hj
        exact Option.noConfusion hj)

end Engine

